import Mathlib

set_option maxRecDepth 100000

/-!
# Verification of the Algo-Catalyst backtesting engine

A shallow embedding of the C++ sources of the Algo-Catalyst event-driven
backtester (`include/Events.h`, `include/Indicators.h`, `src/Indicators.cpp`,
`include/AI_Regime.h`, `src/AI_Regime.cpp`, `include/Strategy.h`,
`src/Strategy.cpp`, `include/Engine.h`, `src/Engine.cpp`), together with
theorems settling the specification claims about it.

Modelling conventions:
* C++ `double` is modelled as `ℚ` (exact real arithmetic; the source performs
  no floating-point-specific operations such as NaN tests or bit tricks).
* C++ `std::int64_t` is modelled as `ℤ` (the source never exercises overflow).
* `std::sqrt` (used only by the regime classifier) is kept as an explicit
  function parameter `sqrtFn : ℚ → ℚ`.  Comparisons of two square roots of
  non-negative numbers in the source (`calculateDistance` results compared
  with each other and with the constant `0.001`) are modelled by comparing
  the radicands, which is exact because `Real.sqrt` is strictly monotone on
  non-negatives.  Everywhere a square-root *value* is stored (`volatility`),
  `sqrtFn` is used; theorems that depend on it hold for every `sqrtFn`, and
  concrete evaluations only ever take square roots of `0`, where every
  reasonable `sqrtFn` (in particular `ratSqrt` below) agrees with `Real.sqrt`.
* fallible/partial C++ code paths (empty containers, missing keys) are
  modelled with `Option` / explicit defaults exactly as the source guards them.
-/

namespace AlgoCatalyst

/-! ## Events.h : Tick, directions, events -/

/-- `struct Tick` from `include/Events.h`. -/
structure Tick where
  timestamp_us : ℤ
  price : ℚ
  volume : ℤ
  bid_size : ℚ
  ask_size : ℚ
  deriving DecidableEq, Repr

instance : Inhabited Tick := ⟨⟨0, 0, 0, 0, 0⟩⟩

/-- `SignalEvent::Direction` from `include/Events.h`. -/
inductive Direction where
  | LONG
  | SHORT
  | EXIT
  deriving DecidableEq, Repr

/-- The four event variants (`MarketUpdateEvent`, `SignalEvent`, `OrderEvent`,
`FillEvent` from `include/Events.h`), as a tagged sum.  Every variant carries
its timestamp first. -/
inductive Event where
  | marketUpdate (ts : ℤ) (tick : Tick)
  | signal (ts : ℤ) (symbol : String) (dir : Direction) (qty price : ℚ)
  | order (ts : ℤ) (symbol : String) (dir : Direction) (qty price : ℚ)
  | fill (ts : ℤ) (symbol : String) (dir : Direction) (qty fillPrice commission : ℚ)
  deriving DecidableEq, Repr

instance : Inhabited Event := ⟨.marketUpdate 0 default⟩

/-- `Event::getTimestamp`. -/
def Event.getTimestamp : Event → ℤ
  | .marketUpdate ts _ => ts
  | .signal ts _ _ _ _ => ts
  | .order ts _ _ _ _ => ts
  | .fill ts _ _ _ _ _ => ts

/-- The trade direction an event carries (`none` for a market update); used to
state which directions ever reach the queue. -/
def eventDir : Event → Option Direction
  | .marketUpdate _ _ => none
  | .signal _ _ dir _ _ => some dir
  | .order _ _ dir _ _ => some dir
  | .fill _ _ dir _ _ _ => some dir

/-! ## Indicators.h / Indicators.cpp -/

/-- State of class `Indicators`.  The field `emas` models
`std::map<std::size_t, std::pair<double,double>> emas_` (period ↦ (EMA value,
alpha)) as a lookup function; `macd_histogram_history` and `volume_history`
model the two bounded `std::deque`s with back = most recent element. -/
structure Indicators where
  emas : ℕ → Option (ℚ × ℚ)
  ema_12 : ℚ
  ema_26 : ℚ
  macd_signal_ema_9 : ℚ
  macd_histogram_history : List ℚ
  cumulative_price_volume : ℚ
  cumulative_volume : ℤ
  vwap_session_start_us : ℤ
  volume_history : List (ℤ × ℤ)
  prev_close : ℚ
  current_price : ℚ
  open_price : ℚ
  is_first_tick : Bool

/-- `Indicators::Indicators()` (the default constructor; `emas_` starts
empty). -/
def Indicators.init : Indicators where
  emas := fun _ => none
  ema_12 := 0
  ema_26 := 0
  macd_signal_ema_9 := 0
  macd_histogram_history := []
  cumulative_price_volume := 0
  cumulative_volume := 0
  vwap_session_start_us := 0
  volume_history := []
  prev_close := 0
  current_price := 0
  open_price := 0
  is_first_tick := true

/-- `Indicators::updateEMA` (`src/Indicators.cpp`): seed with the first price,
then `ema ← α·price + (1−α)·ema` with `α = 2/(period+1)`. -/
def Indicators.updateEMA (ind : Indicators) (price : ℚ) (period : ℕ) : Indicators :=
  match ind.emas period with
  | none =>
      let alpha : ℚ := 2 / ((period : ℚ) + 1)
      { ind with emas := fun p => if p = period then some (price, alpha) else ind.emas p }
  | some (v, a) =>
      { ind with emas := fun p => if p = period then some (a * price + (1 - a) * v, a) else ind.emas p }

/-- `Indicators::getEMA`: `0` when the period was never updated. -/
def Indicators.getEMA (ind : Indicators) (period : ℕ) : ℚ :=
  match ind.emas period with
  | some (v, _) => v
  | none => 0

/-- `Indicators::isPriceAboveEMA`. -/
def Indicators.isPriceAboveEMA (ind : Indicators) (price : ℚ) (period : ℕ) : Bool :=
  let e := ind.getEMA period
  0 < e && e < price

/-- `Indicators::updateMACD` (`src/Indicators.cpp`): seeded 12- and 26-EMAs,
a 9-EMA signal line over the MACD line, and a histogram deque capped at 10. -/
def Indicators.updateMACD (ind : Indicators) (price : ℚ) : Indicators :=
  let ema12 := if ind.ema_12 = 0 then price else (2/13 : ℚ) * price + (1 - 2/13) * ind.ema_12
  let ema26 := if ind.ema_26 = 0 then price else (2/27 : ℚ) * price + (1 - 2/27) * ind.ema_26
  let macd_line := ema12 - ema26
  let sig := if ind.macd_signal_ema_9 = 0 then macd_line
             else (2/10 : ℚ) * macd_line + (1 - 2/10) * ind.macd_signal_ema_9
  let hist := ind.macd_histogram_history ++ [macd_line - sig]
  let hist := if 10 < hist.length then hist.drop 1 else hist
  { ind with ema_12 := ema12, ema_26 := ema26, macd_signal_ema_9 := sig,
             macd_histogram_history := hist }

/-- `Indicators::getMACDHistogram`: back of the deque, `0` when empty. -/
def Indicators.getMACDHistogram (ind : Indicators) : ℚ :=
  ind.macd_histogram_history.getLastD 0

/-- `Indicators::isMACDHistogramExpanding`: true iff the deque has ≥ 2 entries
and the last strictly exceeds the second-to-last. -/
def Indicators.isMACDHistogramExpanding (ind : Indicators) : Bool :=
  match ind.macd_histogram_history.reverse with
  | current :: previous :: _ => previous < current
  | _ => false

/-- `Indicators::updateVWAP`. -/
def Indicators.updateVWAP (ind : Indicators) (price : ℚ) (volume : ℤ) (timestamp_us : ℤ) :
    Indicators :=
  let ind :=
    if ind.vwap_session_start_us = 0 then
      { ind with vwap_session_start_us := timestamp_us,
                 cumulative_price_volume := 0, cumulative_volume := 0 }
    else ind
  { ind with cumulative_price_volume := ind.cumulative_price_volume + price * (volume : ℚ),
             cumulative_volume := ind.cumulative_volume + volume }

/-- `Indicators::getVWAP`: `0` when no volume has accumulated. -/
def Indicators.getVWAP (ind : Indicators) : ℚ :=
  if ind.cumulative_volume = 0 then 0
  else ind.cumulative_price_volume / (ind.cumulative_volume : ℚ)

/-- `Indicators::isPriceAboveVWAP`. -/
def Indicators.isPriceAboveVWAP (ind : Indicators) (price : ℚ) : Bool :=
  let v := ind.getVWAP
  0 < v && v < price

/-- `Indicators::updateVolume`: append to the `(timestamp, volume)` deque,
capped at the last 20 entries. -/
def Indicators.updateVolume (ind : Indicators) (volume : ℤ) (timestamp_us : ℤ) : Indicators :=
  let h := ind.volume_history ++ [(timestamp_us, volume)]
  { ind with volume_history := if 20 < h.length then h.drop 1 else h }

/-- `Indicators::getAverageVolume` (default lookback 20): `0` when fewer than
2 entries, else the mean of the last `min lookback len` volumes. -/
def Indicators.getAverageVolume (ind : Indicators) (lookback : ℕ := 20) : ℚ :=
  if ind.volume_history.length < 2 then 0
  else
    let count := min lookback ind.volume_history.length
    let tail := ind.volume_history.drop (ind.volume_history.length - count)
    ((tail.map (fun p => p.2)).sum : ℚ) / (count : ℚ)

/-- `Indicators::getRelativeVolume`: last volume over the 20-average, `0` on a
zero average or empty history. -/
def Indicators.getRelativeVolume (ind : Indicators) : ℚ :=
  let avg := ind.getAverageVolume
  if avg = 0 then 0
  else
    match ind.volume_history.reverse with
    | [] => 0
    | (_, v) :: _ => (v : ℚ) / avg

/-- `Indicators::updatePrice`: on the first tick seed `prev_close` and
`open_price`; afterwards `prev_close` tracks the previous tick's price. -/
def Indicators.updatePrice (ind : Indicators) (price : ℚ) : Indicators :=
  if ind.is_first_tick then
    { ind with prev_close := price, open_price := price, is_first_tick := false,
               current_price := price }
  else
    { ind with prev_close := ind.current_price, current_price := price }

/-- `Indicators::getGapUpPercent`: `0` when `prev_close = 0`. -/
def Indicators.getGapUpPercent (ind : Indicators) : ℚ :=
  if ind.prev_close = 0 then 0
  else (ind.current_price - ind.prev_close) / ind.prev_close * 100

/-! ## AI_Regime.h / AI_Regime.cpp -/

/-- `RegimeClassifier::Regime`. -/
inductive Regime where
  | CHOPPY
  | TRENDING
  deriving DecidableEq, Repr

/-- `RegimeClassifier::Feature`: the 3-dimensional feature vector. -/
structure Feature where
  volatility : ℚ
  direction : ℚ
  volume_norm : ℚ
  deriving DecidableEq, Repr

instance : Inhabited Feature := ⟨⟨0, 0, 0⟩⟩

/-- State of class `RegimeClassifier`.  `tick_history` models the
`std::deque<Tick>` with head = oldest. -/
structure RegimeState where
  lookback : ℕ
  num_clusters : ℕ
  tick_history : List Tick
  current_regime : Regime
  centroids : List Feature

/-- `RegimeClassifier::RegimeClassifier(lookback, num_clusters)`:
`centroids_.resize(num_clusters)` value-initialises the features to zero. -/
def RegimeState.init (lookback num_clusters : ℕ) : RegimeState where
  lookback := lookback
  num_clusters := num_clusters
  tick_history := []
  current_regime := .CHOPPY
  centroids := List.replicate num_clusters default

/-- The list of simple returns `(p_i − p_{i−1})/p_{i−1}` over consecutive
ticks, skipping pairs whose base price is ≤ 0, exactly as both
`calculateVolatility` and `calculateDirection` build them. -/
def tickReturns (ticks : List Tick) : List ℚ :=
  ((ticks.zip (ticks.drop 1)).filter (fun p => 0 < p.1.price)).map
    (fun p => (p.2.price - p.1.price) / p.1.price)

/-- `RegimeClassifier::calculateVolatility`: standard deviation of the simple
returns (`0` for fewer than 2 ticks or no valid returns).  The square root is
taken by the explicit parameter `sqrtFn` (the source calls `std::sqrt`). -/
def calculateVolatility (sqrtFn : ℚ → ℚ) (ticks : List Tick) : ℚ :=
  if ticks.length < 2 then 0
  else
    let returns := tickReturns ticks
    if returns = [] then 0
    else
      let mean := returns.sum / (returns.length : ℚ)
      let variance := (returns.map (fun r => (r - mean) ^ 2)).sum / (returns.length : ℚ)
      sqrtFn variance

/-- `RegimeClassifier::calculateDirection`: `|Σ returns| / ticks.length`. -/
def calculateDirection (ticks : List Tick) : ℚ :=
  if ticks.length < 2 then 0
  else |(tickReturns ticks).sum| / (ticks.length : ℚ)

/-- The *squared* Euclidean distance between two features.
`RegimeClassifier::calculateDistance` returns `std::sqrt` of this quantity;
the source only ever *compares* two distances with each other or with the
constant `0.001`, and `Real.sqrt` is strictly monotone on non-negatives, so
every comparison is modelled exactly by comparing squared distances (with
`0.001²`). -/
def distSq (a b : Feature) : ℚ :=
  (a.volatility - b.volatility) ^ 2 + (a.direction - b.direction) ^ 2 +
    (a.volume_norm - b.volume_norm) ^ 2

/-- `RegimeClassifier::calculateCentroid`: componentwise arithmetic mean
(`⟨0,0,0⟩` for an empty cluster, which the caller never passes). -/
def calculateCentroid (cluster : List Feature) : Feature :=
  if cluster = [] then default
  else
    let n : ℚ := cluster.length
    ⟨(cluster.map Feature.volatility).sum / n,
     (cluster.map Feature.direction).sum / n,
     (cluster.map Feature.volume_norm).sum / n⟩

/-- The volume-normalisation used for each feature window in
`extractFeatures`: last volume over the window mean, where the mean defaults
to `1` when the window's total volume is not positive. -/
def windowVolumeNorm (window : List Tick) : ℚ :=
  let sum_vol : ℤ := (window.map Tick.volume).sum
  let avg_vol : ℚ := if 0 < sum_vol then (sum_vol : ℚ) / (window.length : ℚ) else 1
  ((window.getLastD default).volume : ℚ) / avg_vol

/-- One feature from a tick window (volatility, direction, volume norm), as
built inside the loops of `RegimeClassifier::extractFeatures`. -/
def windowFeature (sqrtFn : ℚ → ℚ) (window : List Tick) : Feature :=
  ⟨calculateVolatility sqrtFn window, calculateDirection window, windowVolumeNorm window⟩

/-- `RegimeClassifier::extractFeatures`: one feature per length-11 window
`ticks[i−10 … i]` for `i ∈ [10, len)`; if that yields nothing and the ring
has ≥ 2 ticks, a single feature over the whole ring. -/
def extractFeatures (sqrtFn : ℚ → ℚ) (ticks : List Tick) : List Feature :=
  if ticks.length < 2 then []
  else
    let window_size := 10
    let features := (List.range ticks.length).filterMap (fun i =>
      if window_size ≤ i then
        some (windowFeature sqrtFn ((ticks.drop (i - window_size)).take (window_size + 1)))
      else none)
    if features = [] then [windowFeature sqrtFn ticks]
    else features

/-- The index of the nearest centroid under strict-improvement scanning:
`min_dist` starts at `DBL_MAX` and is beaten only by a strictly smaller
distance, so the first centroid wins ties. -/
def nearestCluster (centroids : List Feature) (f : Feature) : ℕ :=
  (centroids.foldl
    (fun (st : ℕ × ℕ × Option ℚ) c =>
      let (i, best, bestD) := st
      match bestD with
      | none => (i + 1, i, some (distSq f c))
      | some d => if distSq f c < d then (i + 1, i, some (distSq f c)) else (i + 1, best, bestD))
    (0, 0, none)).2.1

/-- One Lloyd iteration over fixed `features`: assign every feature to its
nearest centroid, then replace every centroid of a non-empty cluster by the
cluster mean.  Returns the new centroids and whether every updated centroid
moved by at most `0.001` (squared comparison, see `distSq`). -/
def kmeansIteration (features : List Feature) (centroids : List Feature) :
    List Feature × Bool :=
  let clusters := (List.range centroids.length).map (fun i =>
    features.filter (fun f => nearestCluster centroids f = i))
  (List.range centroids.length).foldl
    (fun (st : List Feature × Bool) i =>
      let (cents, converged) := st
      match clusters.getD i [] with
      | [] => (cents, converged)
      | cluster =>
          let newCentroid := calculateCentroid cluster
          let moved := (1/1000 : ℚ) ^ 2 < distSq newCentroid (cents.getD i default)
          ((cents.set i newCentroid), converged && !moved))
    (centroids, true)

/-- The ≤ 10 Lloyd iterations of `RegimeClassifier::performKMeans`, stopping
early on convergence. -/
def kmeansLoop (features : List Feature) : ℕ → List Feature → List Feature
  | 0, centroids => centroids
  | n + 1, centroids =>
      let (cents, converged) := kmeansIteration features centroids
      if converged then cents else kmeansLoop features n cents

/-- Insertion of a rational into a sorted list (ascending); `sortQ` models the
`std::sort` calls in `performKMeans` (only the sorted *values* are read, so
any stable order among duplicates is equivalent). -/
def insertQ (x : ℚ) : List ℚ → List ℚ
  | [] => [x]
  | y :: ys => if x ≤ y then x :: y :: ys else y :: insertQ x ys

/-- Ascending sort of rationals. -/
def sortQ (l : List ℚ) : List ℚ := l.foldr insertQ []

/-- `RegimeClassifier::performKMeans`: deterministic percentile seeding
(cluster 0 at the 25th percentile of each independently sorted feature
coordinate, cluster 1 at the 75th) followed by `kmeansLoop` (10 iterations
maximum).  Empty feature set: centroids unchanged. -/
def performKMeans (num_clusters : ℕ) (centroids : List Feature)
    (features : List Feature) : List Feature :=
  if features = [] then centroids
  else
    let volatilities := sortQ (features.map Feature.volatility)
    let directions := sortQ (features.map Feature.direction)
    let volumes := sortQ (features.map Feature.volume_norm)
    let n := features.length
    let cents := centroids.set 0
      ⟨volatilities.getD (n / 4) 0, directions.getD (n / 4) 0, volumes.getD (n / 4) 0⟩
    let cents := if 1 < num_clusters then
        cents.set 1
          ⟨volatilities.getD (3 * n / 4) 0, directions.getD (3 * n / 4) 0,
           volumes.getD (3 * n / 4) 0⟩
      else cents
    kmeansLoop features 10 cents

/-- The ring update at the top of `updateAndClassify`: `push_back` the tick,
then `pop_front` once when over capacity. -/
def RegimeState.pushTick (st : RegimeState) (tick : Tick) : List Tick :=
  let hist := st.tick_history ++ [tick]
  if st.lookback < hist.length then hist.drop 1 else hist

/-- `RegimeClassifier::updateAndClassify` (`src/AI_Regime.cpp`): push the tick
into the ring (capacity `lookback`), force CHOPPY below 20 ticks, otherwise
run feature extraction + k-means, classify the current feature against the
nearest centroid, with a volatility/direction override for cluster 0. -/
def RegimeState.updateAndClassify (sqrtFn : ℚ → ℚ) (st : RegimeState) (tick : Tick) :
    RegimeState :=
  let hist := st.pushTick tick
  if hist.length < 20 then
    { st with tick_history := hist, current_regime := .CHOPPY }
  else
    let features := extractFeatures sqrtFn hist
    let cents := performKMeans st.num_clusters st.centroids features
    let current_feature :=
      if 2 ≤ hist.length then
        let sum_vol : ℤ := (hist.map Tick.volume).sum
        let count := hist.length
        let avg_vol : ℚ := if 0 < count then (sum_vol : ℚ) / (count : ℚ) else 1
        Feature.mk (calculateVolatility sqrtFn hist) (calculateDirection hist)
          ((tick.volume : ℚ) / avg_vol)
      else features.getLastD default
    let nearest := nearestCluster cents current_feature
    let regime :=
      if nearest = 0 then
        if 2/100 < current_feature.volatility ∧ 1/100 < current_feature.direction then
          Regime.TRENDING
        else Regime.CHOPPY
      else Regime.TRENDING
    { st with tick_history := hist, centroids := cents, current_regime := regime }

/-- `RegimeClassifier::getPositionMultiplier`: CHOPPY → 0, TRENDING → 1.5. -/
def RegimeState.getPositionMultiplier (st : RegimeState) : ℚ :=
  match st.current_regime with
  | .CHOPPY => 0
  | .TRENDING => 3/2

/-! ## Strategy.h / Strategy.cpp

`NewsMomentumStrategy` holds a raw pointer `RegimeClassifier*`.  In the
program (`main.cpp`) every strategy is constructed with the address of a live
classifier, all `if (regime_classifier_)` guards take the non-null branch,
and the classifier is not shared with any other component, so the classifier
state is embedded directly in the strategy state. -/

/-- State of `NewsMomentumStrategy` together with its `Strategy` base class
(fields `symbol_`, `position_`, `avg_fill_price_`, `indicators_`). -/
structure StrategyState where
  symbol : String
  position : ℚ
  avg_fill_price : ℚ
  indicators : Indicators
  regime_classifier : RegimeState
  min_relative_volume : ℚ
  min_gap_up_percent : ℚ
  min_bid_ask_ratio : ℚ
  base_position_size : ℚ
  was_long_ema_above_short : Bool
  entry_timestamp_us : ℤ

/-- The constructors `Strategy(symbol)` and
`NewsMomentumStrategy(symbol, regime_classifier)`, with the in-class
initialisers of the strategy parameters (`main.cpp` re-sets the same
values). -/
def StrategyState.init (symbol : String) (regime : RegimeState) : StrategyState where
  symbol := symbol
  position := 0
  avg_fill_price := 0
  indicators := Indicators.init
  regime_classifier := regime
  min_relative_volume := 5
  min_gap_up_percent := 10
  min_bid_ask_ratio := 3/2
  base_position_size := 100
  was_long_ema_above_short := false
  entry_timestamp_us := 0

/-- `Strategy::hasPosition`. -/
def StrategyState.hasPosition (s : StrategyState) : Bool :=
  s.position ≠ 0

/-- `NewsMomentumStrategy::checkVolumeSpike`. -/
def StrategyState.checkVolumeSpike (s : StrategyState) : Bool :=
  s.min_relative_volume ≤ s.indicators.getRelativeVolume

/-- `NewsMomentumStrategy::checkGapUp`. -/
def StrategyState.checkGapUp (s : StrategyState) : Bool :=
  s.min_gap_up_percent ≤ s.indicators.getGapUpPercent

/-- `NewsMomentumStrategy::checkEMATrend`. -/
def StrategyState.checkEMATrend (s : StrategyState) (price : ℚ) : Bool :=
  if price = 0 then false
  else
    s.indicators.isPriceAboveEMA price 90 && s.indicators.isPriceAboveEMA price 200 &&
      s.indicators.getEMA 200 < s.indicators.getEMA 90

/-- `NewsMomentumStrategy::checkEMACrossover`: bails out (without touching
state) when either EMA is still 0, otherwise updates
`was_long_ema_above_short_` to the current truth of `EMA(9) > EMA(90)` and
allows entry on a crossover or while already above. -/
def StrategyState.checkEMACrossover (s : StrategyState) : Bool × StrategyState :=
  let ema9 := s.indicators.getEMA 9
  let ema90 := s.indicators.getEMA 90
  if ema9 = 0 ∨ ema90 = 0 then (false, s)
  else
    let current_long_above := ema90 < ema9
    let crossover := current_long_above && !s.was_long_ema_above_short
    (crossover || current_long_above,
     { s with was_long_ema_above_short := current_long_above })

/-- `NewsMomentumStrategy::checkVWAP`. -/
def StrategyState.checkVWAP (s : StrategyState) (price : ℚ) : Bool :=
  if price = 0 then false else s.indicators.isPriceAboveVWAP price

/-- `NewsMomentumStrategy::checkMACD`. -/
def StrategyState.checkMACD (s : StrategyState) : Bool :=
  s.indicators.isMACDHistogramExpanding

/-- `NewsMomentumStrategy::checkOrderBookImbalance`: fails on
`ask_size = 0`, otherwise requires `bid_size / ask_size ≥ min_bid_ask_ratio`. -/
def StrategyState.checkOrderBookImbalance (s : StrategyState) (tick : Tick) : Bool :=
  if tick.ask_size = 0 then false
  else s.min_bid_ask_ratio ≤ tick.bid_size / tick.ask_size

/-- `NewsMomentumStrategy::checkEntryConditions`: the short-circuited
conjunction, in source order; `checkEMACrossover` is the only check with a
state effect, so the returned state reflects exactly whether the evaluation
reached it. -/
def StrategyState.checkEntryConditions (s : StrategyState) (tick : Tick) :
    Bool × StrategyState :=
  if ¬s.checkVolumeSpike then (false, s)
  else if ¬s.checkGapUp then (false, s)
  else if ¬s.checkEMATrend tick.price then (false, s)
  else
    let (cross, s) := s.checkEMACrossover
    if ¬cross then (false, s)
    else if ¬s.checkVWAP tick.price then (false, s)
    else if ¬s.checkMACD then (false, s)
    else if ¬s.checkOrderBookImbalance tick then (false, s)
    else if s.regime_classifier.current_regime ≠ .TRENDING then (false, s)
    else (true, s)

/-- `NewsMomentumStrategy::checkExitConditions` (a pure disjunction). -/
def StrategyState.checkExitConditions (s : StrategyState) (tick : Tick) : Bool :=
  if ¬s.indicators.isPriceAboveVWAP tick.price then true
  else if ¬s.indicators.isMACDHistogramExpanding ∧ s.indicators.getMACDHistogram < 0 then true
  else if s.regime_classifier.current_regime = .CHOPPY then true
  else false

/-- `NewsMomentumStrategy::calculatePositionSize`: scale by the regime
multiplier when it is positive, otherwise fall back to the base size. -/
def StrategyState.calculatePositionSize (s : StrategyState) : ℚ :=
  let multiplier := s.regime_classifier.getPositionMultiplier
  if 0 < multiplier then s.base_position_size * multiplier
  else s.base_position_size

/-- The update block at the top of `NewsMomentumStrategy::processMarketUpdate`
(lines 24–36 of `src/Strategy.cpp`): feed the regime classifier, then update
price, the three EMAs, MACD, VWAP and the volume ring. -/
def StrategyState.updateTick (sqrtFn : ℚ → ℚ) (s : StrategyState)
    (timestamp_us : ℤ) (tick : Tick) : StrategyState :=
  let s := { s with regime_classifier := s.regime_classifier.updateAndClassify sqrtFn tick }
  let ind := ((((((s.indicators.updatePrice tick.price).updateEMA tick.price 9).updateEMA
      tick.price 90).updateEMA tick.price 200).updateMACD
      tick.price).updateVWAP tick.price tick.volume timestamp_us).updateVolume
      tick.volume timestamp_us
  { s with indicators := ind }

/-- `NewsMomentumStrategy::processMarketUpdate` (`src/Strategy.cpp`): feed the
classifier, update every indicator, then evaluate exit (when holding a
position) or entry (when flat), returning the emitted `Signal` events. -/
def StrategyState.processMarketUpdate (sqrtFn : ℚ → ℚ) (s : StrategyState)
    (timestamp_us : ℤ) (tick : Tick) : StrategyState × List Event :=
  let s := s.updateTick sqrtFn timestamp_us tick
  if s.hasPosition then
    if s.checkExitConditions tick then
      (s, [Event.signal timestamp_us s.symbol .EXIT |s.position| tick.price])
    else (s, [])
  else
    let (ok, s) := s.checkEntryConditions tick
    if ok then
      let position_size := s.calculatePositionSize
      if 0 < position_size then
        ({ s with entry_timestamp_us := timestamp_us },
         [Event.signal timestamp_us s.symbol .LONG position_size tick.price])
      else (s, [])
    else (s, [])

/-! ## Engine.h / Engine.cpp

### `std::map` model

`strategies_`, `tick_data_` and `positions_` are `std::map`s keyed by
`std::string`; they are modelled as association lists kept sorted by key
(C++ `std::map` iteration order), with insert-or-assign. -/

/-- Lookup in an association list (`std::map::find`). -/
def mapFind? {α : Type} (m : List (String × α)) (k : String) : Option α :=
  (m.find? (fun p => p.1 = k)).map Prod.snd

/-- Ordered insert-or-assign (`std::map::operator[] = v`); `std::less<
std::string>` is the lexicographic character order, i.e. `String.data <`. -/
def mapInsert {α : Type} (k : String) (v : α) : List (String × α) → List (String × α)
  | [] => [(k, v)]
  | (k', v') :: rest =>
      if k.data < k'.data then (k, v) :: (k', v') :: rest
      else if k = k' then (k, v) :: rest
      else (k', v') :: mapInsert k v rest

/-! ### The event queue

`Backtester::EventQueue` is `std::priority_queue<EventPtr, std::vector<EventPtr>,
EventComparator>` with `comp(a,b) = a->getTimestamp() > b->getTimestamp()`
(a binary min-heap on timestamps).  `std::priority_queue` is modelled by the
libstdc++ heap algorithms (`std::push_heap` / `std::pop_heap`) on the backing
vector, which is what the source links against; note that this heap attaches
no sequence number, so its order among equal timestamps is whatever the
sift-up / sift-down walks produce. -/

/-- Element `i` of the heap vector (`default` out of range; all accesses are
in range by construction). -/
def nthE (q : List Event) (i : ℕ) : Event := q.getD i default

/-- The timestamp key the comparator uses. -/
def ets (e : Event) : ℤ := e.getTimestamp

/-- The loop of libstdc++ `std::__push_heap`, with a structural fuel argument
so that the definition reduces; every call supplies `fuel = hole`, which is
sufficient because the hole index strictly decreases towards the root, so the
fuel-0 case is only ever reached with `hole = 0`, where it agrees with the
loop exit. -/
def heapSiftUpGo (value : Event) : ℕ → List Event → ℕ → List Event
  | 0, q, hole => q.set hole value
  | fuel + 1, q, hole =>
      if hole = 0 then q.set 0 value
      else
        let parent := (hole - 1) / 2
        if ets value < ets (nthE q parent) then
          heapSiftUpGo value fuel (q.set hole (nthE q parent)) parent
        else q.set hole value

/-- libstdc++ `std::__push_heap`: walk the hole at `hole` towards the root
while the parent's key exceeds `value`'s, then drop `value` in. -/
def heapSiftUp (q : List Event) (hole : ℕ) (value : Event) : List Event :=
  heapSiftUpGo value hole q hole

/-- `std::priority_queue::push`: append, then sift up from the new slot. -/
def heapPush (q : List Event) (e : Event) : List Event :=
  heapSiftUp (q ++ [e]) q.length e

/-- The loop of the descending walk of libstdc++ `std::__adjust_heap`, with a
structural fuel argument so that the definition reduces; the hole index
strictly increases and the walk stops below `q.length`, so `fuel = q.length`
is always sufficient and the fuel-0 case is only ever reached once the loop
condition is already false. -/
def heapWalkDownGo : ℕ → List Event → ℕ → List Event × ℕ
  | 0, q, hole => (q, hole)
  | fuel + 1, q, hole =>
      let len := q.length
      if hole < (len - 1) / 2 then
        let sc0 := 2 * (hole + 1)
        let sc := if ets (nthE q (sc0 - 1)) < ets (nthE q sc0) then sc0 - 1 else sc0
        heapWalkDownGo fuel (q.set hole (nthE q sc)) sc
      else (q, hole)

/-- The descending walk of libstdc++ `std::__adjust_heap`: repeatedly move the
smaller-keyed child into the hole until the hole reaches the last full level,
returning the array and the final hole index. -/
def heapWalkDown (q : List Event) (hole : ℕ) : List Event × ℕ :=
  heapWalkDownGo q.length q hole

/-- libstdc++ `std::__adjust_heap` on the first `q.length` slots with the hole
at the root: walk down to the bottom level, handle the single-child special
case of an even length, then sift `value` back up from the final hole. -/
def heapAdjust (q : List Event) (value : Event) : List Event :=
  let (q1, hole) := heapWalkDown q 0
  let len := q1.length
  if len % 2 = 0 ∧ hole = (len - 2) / 2 then
    let sc := 2 * (hole + 1)
    heapSiftUp (q1.set hole (nthE q1 (sc - 1))) (sc - 1) value
  else heapSiftUp q1 hole value

/-- `std::priority_queue::pop` (`std::pop_heap` + `pop_back`): return the
root; move the last element out as the adjustment value, drop the last slot
(which conceptually received the root), and re-adjust. -/
def heapPop (q : List Event) : Option (Event × List Event) :=
  match q with
  | [] => none
  | [e] => some (e, [])
  | _ =>
      some (nthE q 0, heapAdjust q.dropLast (nthE q (q.length - 1)))

/-! ### Backtester -/

/-- `Backtester::Position` (`include/Engine.h`). -/
structure Position where
  symbol : String
  quantity : ℚ
  avg_price : ℚ
  direction : Direction
  entry_timestamp_us : ℤ
  entry_regime : String
  deriving DecidableEq, Repr

instance : Inhabited Position := ⟨⟨"", 0, 0, .LONG, 0, "UNKNOWN"⟩⟩

/-- `TradeRecord` (`include/Engine.h`). -/
structure TradeRecord where
  entry_timestamp_us : ℤ
  exit_timestamp_us : ℤ
  symbol : String
  entry_price : ℚ
  exit_price : ℚ
  quantity : ℚ
  pnl : ℚ
  regime : String
  deriving DecidableEq, Repr

instance : Inhabited TradeRecord := ⟨⟨0, 0, "", 0, 0, 0, 0, "UNKNOWN"⟩⟩

/-- State of class `Backtester`. -/
structure BacktesterState where
  latency_ms : ℚ
  current_time_us : ℤ
  event_queue : List Event
  strategies : List (String × StrategyState)
  tick_data : List (String × List Tick)
  positions : List (String × Position)
  trade_log : List TradeRecord

/-- `Backtester::Backtester(latency_ms)`. -/
def Backtester.init (latency_ms : ℚ) : BacktesterState where
  latency_ms := latency_ms
  current_time_us := 0
  event_queue := []
  strategies := []
  tick_data := []
  positions := []
  trade_log := []

/-- Truncation of a rational towards zero, modelling
`static_cast<std::int64_t>` applied to a `double`. -/
def ratTrunc (q : ℚ) : ℤ := q.num.tdiv (q.den : ℤ)

/-- `Backtester::applyLatency`: add `static_cast<int64>(latency_ms · 1000)`
microseconds. -/
def BacktesterState.applyLatency (st : BacktesterState) (timestamp_us : ℤ) : ℤ :=
  timestamp_us + ratTrunc (st.latency_ms * 1000)

/-- `Backtester::loadTickData` (minus the CSV parsing, which is out of the
verified core): reject an empty tick list, otherwise store the ticks for the
symbol and push one `MarketUpdateEvent` per tick. -/
def BacktesterState.loadTickData (st : BacktesterState) (symbol : String)
    (ticks : List Tick) : BacktesterState × Bool :=
  if ticks = [] then (st, false)
  else
    let st := { st with tick_data := mapInsert symbol ticks st.tick_data }
    ({ st with
        event_queue := ticks.foldl (fun q t => heapPush q (.marketUpdate t.timestamp_us t)) st.event_queue },
     true)

/-- `Backtester::registerStrategy`. -/
def BacktesterState.registerStrategy (st : BacktesterState) (symbol : String)
    (strat : StrategyState) : BacktesterState :=
  { st with strategies := mapInsert symbol strat st.strategies }

/-- The symbol-resolution heuristic at the top of
`Backtester::processMarketUpdate`: the first symbol (in map order) whose
non-empty tick array starts within 1000 seconds before the event tick;
fallback to the single loaded symbol, else to the first registered
strategy's symbol. -/
def BacktesterState.resolveSymbol (st : BacktesterState) (event_tick : Tick) : Option String :=
  match st.tick_data.find? (fun p =>
      p.2 ≠ [] ∧
      (p.2.headD default).timestamp_us ≤ event_tick.timestamp_us ∧
      event_tick.timestamp_us ≤ (p.2.headD default).timestamp_us + 1000000000) with
  | some p => some p.1
  | none =>
      if st.tick_data = [] then none
      else if st.tick_data.length = 1 then some ((st.tick_data.headD ("", [])).1)
      else
        match st.strategies with
        | [] => none
        | s :: _ => some s.1

/-- `Backtester::processMarketUpdate`: resolve the symbol, run the registered
strategy (if any), push the returned signals. -/
def BacktesterState.processMarketUpdateEvent (sqrtFn : ℚ → ℚ) (st : BacktesterState)
    (_ts : ℤ) (tick : Tick) : BacktesterState :=
  match st.resolveSymbol tick with
  | none => st
  | some sym =>
      match mapFind? st.strategies sym with
      | none => st
      | some strat =>
          let (strat', signals) := strat.processMarketUpdate sqrtFn tick.timestamp_us tick
          { st with
              strategies := mapInsert sym strat' st.strategies,
              event_queue := signals.foldl heapPush st.event_queue }

/-- The `FillEvent` built by `Backtester::processOrderEvent`: latency-shifted
timestamp, price of the first stored tick at or after the fill time (the
order price when none exists), and a 1-basis-point commission. -/
def BacktesterState.fillForOrder (st : BacktesterState) (ts : ℤ) (symbol : String)
    (dir : Direction) (qty price : ℚ) : Event :=
  let fill_ts := st.applyLatency ts
  let fill_price :=
    match mapFind? st.tick_data symbol with
    | none => price
    | some ticks =>
        match ticks.find? (fun t => fill_ts ≤ t.timestamp_us) with
        | some t => t.price
        | none => price
  .fill fill_ts symbol dir qty fill_price (fill_price * qty * (1/10000))

/-- `Backtester::closePosition`: no-op for a missing or flat position,
otherwise append a `TradeRecord` and zero the position. -/
def BacktesterState.closePosition (st : BacktesterState) (symbol : String)
    (exit_price : ℚ) (timestamp_us : ℤ) : BacktesterState :=
  match mapFind? st.positions symbol with
  | none => st
  | some pos =>
      if pos.quantity = 0 then st
      else
        let pnl :=
          if pos.direction = .LONG then (exit_price - pos.avg_price) * pos.quantity
          else (pos.avg_price - exit_price) * pos.quantity
        let trade : TradeRecord :=
          ⟨pos.entry_timestamp_us, timestamp_us, symbol, pos.avg_price, exit_price,
           pos.quantity, pnl, pos.entry_regime⟩
        { st with
            trade_log := st.trade_log ++ [trade],
            positions := mapInsert symbol
              { pos with quantity := 0, avg_price := 0, entry_timestamp_us := 0 } st.positions }

/-- `Backtester::updatePosition`: create a default position entry on first
contact; EXIT fills close a non-flat position; LONG fills open a flat
position (recording the hard-coded `"TRENDING"` label when a strategy is
registered) or are averaged into an open one; SHORT fills do nothing. -/
def BacktesterState.updatePosition (st : BacktesterState) (ts : ℤ) (symbol : String)
    (dir : Direction) (qty fill_price : ℚ) : BacktesterState :=
  let freshPos : Position := ⟨symbol, 0, 0, .LONG, 0, "UNKNOWN"⟩
  let st :=
    if (mapFind? st.positions symbol).isNone then
      { st with positions := mapInsert symbol freshPos st.positions }
    else st
  let pos := (mapFind? st.positions symbol).getD default
  match dir with
  | .EXIT => if pos.quantity ≠ 0 then st.closePosition symbol fill_price ts else st
  | .LONG =>
      if pos.quantity = 0 then
        let regime := if (mapFind? st.strategies symbol).isSome then "TRENDING"
                      else pos.entry_regime
        let opened := { pos with quantity := qty, avg_price := fill_price,
                                 direction := Direction.LONG, entry_timestamp_us := ts,
                                 entry_regime := regime }
        { st with positions := mapInsert symbol opened st.positions }
      else
        let total_cost := pos.avg_price * pos.quantity + fill_price * qty
        let newQty := pos.quantity + qty
        let added := { pos with quantity := newQty, avg_price := total_cost / newQty }
        { st with positions := mapInsert symbol added st.positions }
  | .SHORT => st

/-- `Backtester::processEvent`: dispatch on the event tag.  Signals are
promoted to orders at the same timestamp; orders become latency-shifted
fills; fills update positions. -/
def BacktesterState.processEvent (sqrtFn : ℚ → ℚ) (st : BacktesterState) (ev : Event) :
    BacktesterState :=
  match ev with
  | .marketUpdate ts tick => st.processMarketUpdateEvent sqrtFn ts tick
  | .signal ts sym dir qty price =>
      { st with event_queue := heapPush st.event_queue (.order ts sym dir qty price) }
  | .order ts sym dir qty price =>
      { st with event_queue := heapPush st.event_queue (st.fillForOrder ts sym dir qty price) }
  | .fill ts sym dir qty fill_price _commission => st.updatePosition ts sym dir qty fill_price

/-- One iteration of the `while (!event_queue_.empty())` loop of
`Backtester::run`: pop the top event, advance `current_time_us_`, process. -/
def BacktesterState.step (sqrtFn : ℚ → ℚ) (st : BacktesterState) :
    Option (Event × BacktesterState) :=
  match heapPop st.event_queue with
  | none => none
  | some (ev, q) =>
      some (ev, BacktesterState.processEvent sqrtFn
        { st with event_queue := q, current_time_us := ev.getTimestamp } ev)

/-- The event loop of `Backtester::run`, with explicit fuel; also returns the
dispatch trace (the events in pop order).  Every concrete use supplies enough
fuel for the queue to drain, and the general theorems hold for every fuel. -/
def BacktesterState.runLoop (sqrtFn : ℚ → ℚ) : ℕ → BacktesterState →
    BacktesterState × List Event
  | 0, st => (st, [])
  | n + 1, st =>
      match st.step sqrtFn with
      | none => (st, [])
      | some (ev, st') =>
          let (final, trace) := BacktesterState.runLoop sqrtFn n st'
          (final, ev :: trace)

/-- One iteration of the force-close sweep at the end of `Backtester::run`:
close the position of `sym` (if non-flat) at its symbol's last stored tick.
(The `tick_data_[symbol]` lookup default-constructs an empty vector for an
unknown symbol; that inserted empty vector is never read again, so a
defaulting lookup is equivalent.) -/
def BacktesterState.forceCloseStep (st : BacktesterState) (sym : String) : BacktesterState :=
  match mapFind? st.positions sym with
  | none => st
  | some pos =>
      let ticks := (mapFind? st.tick_data sym).getD []
      if pos.quantity ≠ 0 ∧ ticks ≠ [] then
        st.closePosition sym (ticks.getLastD default).price
          (ticks.getLastD default).timestamp_us
      else st

/-- The force-close sweep at the end of `Backtester::run`: iterate
`forceCloseStep` over the keys of `positions_`. -/
def BacktesterState.forceClose (st : BacktesterState) : BacktesterState :=
  (st.positions.map Prod.fst).foldl BacktesterState.forceCloseStep st

/-- `Backtester::run`: drain the queue, then force-close.  When the fuel runs
out before the queue drains the loop state is returned as-is (the source
would keep looping; concrete uses always supply enough fuel). -/
def BacktesterState.run (sqrtFn : ℚ → ℚ) (fuel : ℕ) (st : BacktesterState) :
    BacktesterState × List Event :=
  let (st', trace) := st.runLoop sqrtFn fuel
  (if st'.event_queue = [] then st'.forceClose else st', trace)

/-- A single-symbol backtest configuration: a `Backtester(latency_ms)` with
the tick stream loaded for `symbol` and one strategy registered for it.  This
is the shape of every run the program performs. -/
def backtestSetup (latency_ms : ℚ) (symbol : String) (ticks : List Tick)
    (strat : StrategyState) : BacktesterState :=
  (((Backtester.init latency_ms).loadTickData symbol ticks).1).registerStrategy symbol strat

/-- The configuration of `main.cpp`: a 200 ms-latency backtester, the tick
stream loaded for one symbol, and one `NewsMomentumStrategy` wired to a
`RegimeClassifier(100, 2)` registered for that symbol. -/
def mainSetup (symbol : String) (ticks : List Tick) : BacktesterState :=
  backtestSetup 200 symbol ticks (StrategyState.init symbol (RegimeState.init 100 2))

/-! ## Instantiations and concrete runs

The definitions below are inputs for the theorems: an executable square
root, a driver that feeds a tick list directly to a strategy, and two
fully concrete tick streams. -/

/-- An executable stand-in for `std::sqrt`, exact on every perfect square
(`ratSqrt (q^2) = q` for `0 ≤ q` with square numerator and denominator) and
in particular `ratSqrt 0 = 0`.  All concrete runs in this file only ever take
the square root of `0` (every tick window used has identical returns, hence
zero variance), where `ratSqrt` agrees with `Real.sqrt`; every general
theorem is quantified over an arbitrary `sqrtFn`. -/
def ratSqrt (q : ℚ) : ℚ :=
  if q ≤ 0 then 0 else (Nat.sqrt q.num.toNat : ℚ) / (Nat.sqrt q.den : ℚ)

/-- Feed a list of `(timestamp, tick)` market updates to a strategy in order,
collecting the emitted signals (the per-symbol view of what the engine's
event loop does to a strategy). -/
def strategyRun (sqrtFn : ℚ → ℚ) (s : StrategyState) (mus : List (ℤ × Tick)) :
    StrategyState × List Event :=
  mus.foldl
    (fun acc mu =>
      let (s', evs) := acc.1.processMarketUpdate sqrtFn mu.1 mu.2
      (s', acc.2 ++ evs))
    (s, [])

/-- The label the classifier reports, as a string.  Modelled from the spec
(§4.5 position bookkeeping): "`entry_regime_label` = label from the
strategy's classifier at fill time" — the source instead stores the literal
`"TRENDING"` (`src/Engine.cpp`, `updatePosition`), which claim C5 compares
against this definition. -/
def regimeLabel : Regime → String
  | .CHOPPY => "CHOPPY"
  | .TRENDING => "TRENDING"

/-- Volumes of concrete run A: quiet warm-up, alternating spikes so that the
k-means clusters separate, and two heavy entry ticks. -/
def runAVols : List ℤ :=
  [1, 1, 1, 1, 1, 1, 1, 1, 1, 1, 50, 1, 50, 1, 50, 1, 50, 1, 50, 100, 150]

/-- Concrete run A: 21 ticks, one per microsecond, each price 10 % above the
previous one (so every simple return is exactly 1/10 and every return window
has zero variance), bid 3 / ask 1.  The entry predicate of the strategy holds
at ticks 19 and 20 (0-based), producing two LONG signals and two LONG fills
with no intervening exit. -/
def runATicks : List Tick :=
  (List.range 21).map (fun (i : ℕ) =>
    ⟨(i : ℤ) + 1, 100 * (mkRat 11 10) ^ i, runAVols.getD i 0, 3, 1⟩)

/-- The `main.cpp` backtest over run A.  27 events drain the queue:
21 market updates, 2 signals, 2 orders, 2 fills. -/
def runAResult : BacktesterState × List Event :=
  (mainSetup "TICKER" runATicks).run ratSqrt 27

/-- The engine state of run A after `n` dispatched events (used to inspect
the state right before the second LONG fill). -/
def runAAfter (n : ℕ) : BacktesterState :=
  ((mainSetup "TICKER" runATicks).runLoop ratSqrt n).1

/-- The strategy-only view of run A: the `NewsMomentumStrategy` state after
processing the first `n` ticks of `runATicks`. -/
def runAStrategyAfter (n : ℕ) : StrategyState :=
  (strategyRun ratSqrt (StrategyState.init "TICKER" (RegimeState.init 100 2))
    ((runATicks.take n).map (fun t => (t.timestamp_us, t)))).1

/-- Concrete run B: four ticks at timestamps 1, 10, 10, 10 (non-decreasing,
with a tie of three), constant price 1, volumes 1‥4 to tell the ticks apart.
No indicator condition ever fires, so the dispatch trace consists of the four
market updates only. -/
def runBTicks : List Tick :=
  [⟨1, 1, 1, 3, 1⟩, ⟨10, 1, 2, 3, 1⟩, ⟨10, 1, 3, 3, 1⟩, ⟨10, 1, 4, 3, 1⟩]

/-- The `main.cpp` backtest over run B (4 events drain the queue). -/
def runBResult : BacktesterState × List Event :=
  (mainSetup "TICKER" runBTicks).run ratSqrt 4

/-- A concrete engine state for claim C5: a freshly set-up single-tick
backtest whose registered strategy's classifier still reports CHOPPY. -/
def ce5State : BacktesterState :=
  mainSetup "T" [⟨1, 100, 1, 3, 1⟩]

/-- `ce5State` after a LONG fill for 10 units at price 100 and time 5. -/
def ce5Applied : BacktesterState :=
  ce5State.updatePosition 5 "T" .LONG 10 100

/-- The two-tick stream for claim C7: prices 100 then 200 with volume 1, so
that after the second tick `EMA(9) > EMA(90)` holds but the entry evaluation
bails out at the relative-volume check (volume ratio 1 < 5) before ever
reaching `checkEMACrossover`. -/
def ce7Run : StrategyState × List Event :=
  strategyRun ratSqrt (StrategyState.init "T" (RegimeState.init 100 2))
    [(1, ⟨1, 100, 1, 3, 1⟩), (2, ⟨2, 200, 1, 3, 1⟩)]

/-- The heap-order invariant of the event queue: every non-root element's
timestamp is at least its parent's.  libstdc++'s `push_heap`/`pop_heap`
maintain it, and it makes the root a minimum-timestamp element. -/
def heapOrd (q : List Event) : Prop :=
  ∀ i, 0 < i → i < q.length → ets (nthE q ((i - 1) / 2)) ≤ ets (nthE q i)

/-- Market-update consistency: every `MarketUpdateEvent` in the queue carries
its tick's timestamp (true of every event the engine ever enqueues). -/
def muConsistent (q : List Event) : Prop :=
  ∀ ts tick, Event.marketUpdate ts tick ∈ q → ts = tick.timestamp_us

/-! ## Basic lemmas about the map model -/

theorem mapFind?_insert_self {α : Type} (k : String) (v : α) (m : List (String × α)) :
    mapFind? (mapInsert k v m) k = some v := by
  induction m with
  | nil => simp [mapInsert, mapFind?]
  | cons p rest ih =>
      obtain ⟨k', v'⟩ := p
      by_cases h1 : k.data < k'.data
      · simp [mapInsert, h1, mapFind?]
      · by_cases h2 : k = k'
        · simp [mapInsert, h1, h2, mapFind?]
        · simpa [mapInsert, h1, h2, mapFind?, Ne.symm h2] using ih

theorem mapFind?_insert_ne {α : Type} (k k' : String) (v : α) (m : List (String × α))
    (h : k' ≠ k) : mapFind? (mapInsert k v m) k' = mapFind? m k' := by
  induction m with
  | nil => simp [mapInsert, mapFind?, Ne.symm h]
  | cons p rest ih =>
      obtain ⟨k'', v''⟩ := p
      by_cases h1 : k.data < k''.data
      · simp [mapInsert, h1, mapFind?, Ne.symm h]
      · by_cases h2 : k = k''
        · simp [mapInsert, h1, h2, mapFind?, h2 ▸ Ne.symm h]
        · by_cases h3 : k'' = k'
          · simp only [mapInsert, if_neg h1, if_neg h2]
            simp [mapFind?, h3]
          · simpa [mapInsert, h1, h2, mapFind?, h3] using ih

/-! ## Lemmas about the EMA map (claim C10) -/

theorem updateEMA_emas_of_ne (ind : Indicators) (x : ℚ) (period p : ℕ) (h : p ≠ period) :
    ((ind.updateEMA x period).emas) p = ind.emas p := by
  unfold Indicators.updateEMA
  cases hm : ind.emas period with
  | none => simp [h]
  | some va => simp [h]

theorem updateEMA_emas_self_of_none (ind : Indicators) (x : ℚ) (period : ℕ)
    (h : ind.emas period = none) :
    ((ind.updateEMA x period).emas) period = some (x, 2 / ((period : ℚ) + 1)) := by
  unfold Indicators.updateEMA
  simp [h]

theorem updateEMA_emas_self_of_some (ind : Indicators) (x : ℚ) (period : ℕ) (v a : ℚ)
    (h : ind.emas period = some (v, a)) :
    ((ind.updateEMA x period).emas) period = some (a * x + (1 - a) * v, a) := by
  unfold Indicators.updateEMA
  simp [h]

/-- Convexity of one EMA step: with `0 < α ≤ 1`, `α·x + (1−α)·v` stays inside
any interval containing both `x` and `v`. -/
theorem emaStep_bounds (a x v lo hi : ℚ) (ha0 : 0 < a) (ha1 : a ≤ 1)
    (hx : lo ≤ x ∧ x ≤ hi) (hv : lo ≤ v ∧ v ≤ hi) :
    lo ≤ a * x + (1 - a) * v ∧ a * x + (1 - a) * v ≤ hi := by
  constructor
  · nlinarith [hx.1, hv.1]
  · nlinarith [hx.2, hv.2]

/-- Invariant propagation for the EMA fold over a mixed update list: once the
period-`p` entry holds `(v, 2/(p+1))` with `v` inside `[lo, hi]` and every
later period-`p` price lies inside `[lo, hi]`, the entry stays inside. -/
theorem emaFold_bounds_seeded (p : ℕ) (hp : 1 ≤ p) (lo hi : ℚ) :
    ∀ (updates : List (ℚ × ℕ)) (ind : Indicators) (v : ℚ),
      ind.emas p = some (v, 2 / ((p : ℚ) + 1)) → lo ≤ v → v ≤ hi →
      (∀ u ∈ updates, u.2 = p → lo ≤ u.1 ∧ u.1 ≤ hi) →
      ∃ v', (updates.foldl (fun i u => i.updateEMA u.1 u.2) ind).emas p
              = some (v', 2 / ((p : ℚ) + 1)) ∧ lo ≤ v' ∧ v' ≤ hi := by
  intro updates
  induction updates with
  | nil => exact fun ind v h hlo hhi _ => ⟨v, h, hlo, hhi⟩
  | cons u rest ih =>
      intro ind v h hlo hhi hall
      obtain ⟨x, per⟩ := u
      by_cases hper : p = per
      · subst hper
        have hx := hall (x, p) (by simp) rfl
        have ha0 : (0 : ℚ) < 2 / ((p : ℚ) + 1) := by positivity
        have ha1 : 2 / ((p : ℚ) + 1) ≤ 1 := by
          rw [div_le_one (by positivity)]
          have h1p : (1 : ℚ) ≤ (p : ℚ) := by exact_mod_cast hp
          linarith
        have hb := emaStep_bounds (2 / ((p : ℚ) + 1)) x v lo hi ha0 ha1 hx ⟨hlo, hhi⟩
        refine ih (ind.updateEMA x p) _ ?_ hb.1 hb.2 ?_
        · exact updateEMA_emas_self_of_some ind x p v _ h
        · exact fun w hw => hall w (by simp [hw])
      · refine ih (ind.updateEMA x per) v ?_ hlo hhi ?_
        · rw [updateEMA_emas_of_ne ind x per p hper]
          exact h
        · exact fun w hw => hall w (by simp [hw])

/-- Invariant propagation before seeding: while no period-`p` update has been
seen the entry stays `none`, and the first period-`p` price seeds it. -/
theorem emaFold_bounds_unseeded (p : ℕ) (hp : 1 ≤ p) (lo hi : ℚ) :
    ∀ (updates : List (ℚ × ℕ)) (ind : Indicators),
      ind.emas p = none →
      (∀ u ∈ updates, u.2 = p → lo ≤ u.1 ∧ u.1 ≤ hi) →
      (updates.foldl (fun i u => i.updateEMA u.1 u.2) ind).emas p = none ∨
      ∃ v', (updates.foldl (fun i u => i.updateEMA u.1 u.2) ind).emas p
              = some (v', 2 / ((p : ℚ) + 1)) ∧ lo ≤ v' ∧ v' ≤ hi := by
  intro updates
  induction updates with
  | nil => exact fun ind h _ => Or.inl h
  | cons u rest ih =>
      intro ind h hall
      obtain ⟨x, per⟩ := u
      by_cases hper : p = per
      · subst hper
        have hx := hall (x, p) (by simp) rfl
        have hseed := updateEMA_emas_self_of_none ind x p h
        exact Or.inr (emaFold_bounds_seeded p hp lo hi rest (ind.updateEMA x p) x hseed
          hx.1 hx.2 (fun w hw => hall w (by simp [hw])))
      · refine ih (ind.updateEMA x per) ?_ (fun w hw => hall w (by simp [hw]))
        rw [updateEMA_emas_of_ne ind x per p hper]
        exact h

/-- Once at least one period-`p` update occurs (or the entry is already
seeded), the period-`p` entry of the EMA map is not `none` after the fold. -/
theorem emaFold_emas_ne_none (p : ℕ) :
    ∀ (updates : List (ℚ × ℕ)) (ind : Indicators),
      ((∃ u ∈ updates, u.2 = p) ∨ ind.emas p ≠ none) →
      (updates.foldl (fun i u => i.updateEMA u.1 u.2) ind).emas p ≠ none := by
  intro updates
  induction updates with
  | nil =>
      rintro ind (⟨u, hu, -⟩ | hne)
      · cases hu
      · exact hne
  | cons w ws ih =>
      rintro ind (⟨u, hu, hup⟩ | hne)
      · rcases List.mem_cons.mp hu with rfl | hmem
        · refine ih (ind.updateEMA u.1 u.2) (Or.inr ?_)
          rw [hup]
          cases hm : ind.emas p with
          | none =>
              rw [updateEMA_emas_self_of_none ind u.1 p hm]
              simp
          | some va =>
              obtain ⟨v, a⟩ := va
              rw [updateEMA_emas_self_of_some ind u.1 p v a hm]
              simp
        · exact ih (ind.updateEMA w.1 w.2) (Or.inl ⟨u, hmem, hup⟩)
      · refine ih (ind.updateEMA w.1 w.2) (Or.inr ?_)
        by_cases hwp : p = w.2
        · rw [hwp]
          cases hm : ind.emas w.2 with
          | none =>
              rw [updateEMA_emas_self_of_none ind w.1 w.2 hm]
              simp
          | some va =>
              obtain ⟨v, a⟩ := va
              rw [updateEMA_emas_self_of_some ind w.1 w.2 v a hm]
              simp
        · rw [updateEMA_emas_of_ne ind w.1 w.2 p hwp]
          exact hne

/-- **C10** (confirmed).  For every period `p ≥ 1` and every update sequence
containing at least one price for period `p`, `getEMA p` after folding
`updateEMA` over the sequence lies within the closed interval spanned by the
prices seen for that period: whenever `lo` is a period-`p` price that bounds
all period-`p` prices from below (i.e. the minimum) and `hi` likewise from
above (the maximum), `lo ≤ getEMA p ≤ hi`. -/
theorem ema_stays_within_seen_price_range (p : ℕ) (hp : 1 ≤ p)
    (updates : List (ℚ × ℕ)) (lo hi : ℚ)
    (hlo_mem : lo ∈ (updates.filter (fun u => u.2 = p)).map Prod.fst)
    (hlo : ∀ x ∈ (updates.filter (fun u => u.2 = p)).map Prod.fst, lo ≤ x)
    (hhi : ∀ x ∈ (updates.filter (fun u => u.2 = p)).map Prod.fst, x ≤ hi) :
    lo ≤ (updates.foldl (fun i u => i.updateEMA u.1 u.2) Indicators.init).getEMA p ∧
    (updates.foldl (fun i u => i.updateEMA u.1 u.2) Indicators.init).getEMA p ≤ hi := by
  have hall : ∀ u ∈ updates, u.2 = p → lo ≤ u.1 ∧ u.1 ≤ hi := by
    intro u hu hup
    have hmem : u.1 ∈ (updates.filter (fun u => u.2 = p)).map Prod.fst := by
      refine List.mem_map.mpr ⟨u, ?_, rfl⟩
      exact List.mem_filter.mpr ⟨hu, by simp [hup]⟩
    exact ⟨hlo _ hmem, hhi _ hmem⟩
  have hinit : (Indicators.init).emas p = none := rfl
  rcases emaFold_bounds_unseeded p hp lo hi updates Indicators.init hinit hall with hnone | hsome
  · -- impossible: at least one period-p update exists, so the entry is seeded
    exfalso
    obtain ⟨u, hu, -⟩ := List.mem_map.mp hlo_mem
    have hu' := List.mem_filter.mp hu
    exact emaFold_emas_ne_none p updates Indicators.init
      (Or.inl ⟨u, hu'.1, by simpa using hu'.2⟩) hnone
  · obtain ⟨v', hv', h1, h2⟩ := hsome
    unfold Indicators.getEMA
    rw [hv']
    exact ⟨h1, h2⟩

/-- Witness for `ema_stays_within_seen_price_range` at `p = 9` with prices
`[4, 2, 8]` (and one unrelated period-90 update): the EMA lies in `[2, 8]`. -/
theorem ema_stays_within_seen_price_range_witness :
    1 ≤ 9 ∧
    (2 : ℚ) ≤ ([((4 : ℚ), (9 : ℕ)), (2, 9), (7, 90), (8, 9)].foldl
        (fun i u => i.updateEMA u.1 u.2) Indicators.init).getEMA 9 ∧
    ([((4 : ℚ), (9 : ℕ)), (2, 9), (7, 90), (8, 9)].foldl
        (fun i u => i.updateEMA u.1 u.2) Indicators.init).getEMA 9 ≤ 8 := by
  refine ⟨by norm_num, ?_⟩
  have h := ema_stays_within_seen_price_range 9 (by norm_num)
    [((4 : ℚ), (9 : ℕ)), (2, 9), (7, 90), (8, 9)] 2 8 (by decide) (by decide) (by decide)
  exact h

/-! ## Warm-up of the regime classifier (claim C9) -/

theorem pushTick_len (st : RegimeState) (tick : Tick) :
    (st.pushTick tick).length ≤ st.tick_history.length + 1 := by
  simp only [RegimeState.pushTick]
  split <;> simp

theorem updateAndClassify_tick_history (sqrtFn : ℚ → ℚ) (st : RegimeState) (tick : Tick) :
    (st.updateAndClassify sqrtFn tick).tick_history = st.pushTick tick := by
  by_cases h : (st.pushTick tick).length < 20 <;>
    simp [RegimeState.updateAndClassify, h]

theorem updateAndClassify_hist_len (sqrtFn : ℚ → ℚ) (st : RegimeState) (tick : Tick) :
    (st.updateAndClassify sqrtFn tick).tick_history.length ≤ st.tick_history.length + 1 := by
  rw [updateAndClassify_tick_history]
  exact pushTick_len st tick

theorem updateAndClassify_regime_of_short (sqrtFn : ℚ → ℚ) (st : RegimeState) (tick : Tick)
    (h : st.tick_history.length + 1 < 20) :
    (st.updateAndClassify sqrtFn tick).current_regime = .CHOPPY := by
  have hlen : (st.pushTick tick).length < 20 := by
    have := pushTick_len st tick
    omega
  simp [RegimeState.updateAndClassify, hlen]

/-- **C9** (confirmed).  For every `sqrtFn`, every classifier configuration
and every tick sequence shorter than 20 ticks, the classifier's regime after
feeding the whole sequence to `updateAndClassify` is CHOPPY. -/
theorem regime_choppy_during_warmup (sqrtFn : ℚ → ℚ) (lookback num_clusters : ℕ)
    (ticks : List Tick) (h : ticks.length < 20) :
    (ticks.foldl (RegimeState.updateAndClassify sqrtFn)
      (RegimeState.init lookback num_clusters)).current_regime = .CHOPPY := by
  have aux : ∀ (rest : List Tick) (st : RegimeState),
      st.tick_history.length + rest.length < 20 → st.current_regime = .CHOPPY →
      (rest.foldl (RegimeState.updateAndClassify sqrtFn) st).current_regime = .CHOPPY := by
    intro rest
    induction rest with
    | nil => exact fun st _ hr => hr
    | cons t ts ih =>
        intro st hlen _
        refine ih (st.updateAndClassify sqrtFn t) ?_ ?_
        · have := updateAndClassify_hist_len sqrtFn st t
          simp only [List.length_cons] at hlen
          omega
        · exact updateAndClassify_regime_of_short sqrtFn st t (by
            simp only [List.length_cons] at hlen
            omega)
  refine aux ticks (RegimeState.init lookback num_clusters) ?_ rfl
  simpa [RegimeState.init] using h

/-- Witness for `regime_choppy_during_warmup`: a single tick leaves the
classifier CHOPPY. -/
theorem regime_choppy_during_warmup_witness :
    ([(⟨1, 100, 1, 3, 1⟩ : Tick)].length < 20) ∧
    ([(⟨1, 100, 1, 3, 1⟩ : Tick)].foldl (RegimeState.updateAndClassify ratSqrt)
      (RegimeState.init 100 2)).current_regime = .CHOPPY := by
  exact ⟨by decide, regime_choppy_during_warmup ratSqrt 100 2 _ (by decide)⟩

/-! ## Strategy lemmas (claims C2, C6, C7) -/

theorem updateTick_position (sqrtFn : ℚ → ℚ) (s : StrategyState) (ts : ℤ) (tick : Tick) :
    (s.updateTick sqrtFn ts tick).position = s.position := rfl

theorem updateTick_symbol (sqrtFn : ℚ → ℚ) (s : StrategyState) (ts : ℤ) (tick : Tick) :
    (s.updateTick sqrtFn ts tick).symbol = s.symbol := rfl

theorem updateTick_was_long (sqrtFn : ℚ → ℚ) (s : StrategyState) (ts : ℤ) (tick : Tick) :
    (s.updateTick sqrtFn ts tick).was_long_ema_above_short = s.was_long_ema_above_short := rfl

/-- `checkEMACrossover` changes at most `was_long_ema_above_short_`. -/
theorem checkEMACrossover_snd (s : StrategyState) :
    ∃ b, (s.checkEMACrossover).2 = { s with was_long_ema_above_short := b } := by
  simp only [StrategyState.checkEMACrossover]
  split
  · exact ⟨s.was_long_ema_above_short, rfl⟩
  · exact ⟨_, rfl⟩

/-- `checkEntryConditions` changes at most `was_long_ema_above_short_`. -/
theorem checkEntryConditions_snd (s : StrategyState) (tick : Tick) :
    ∃ b, (s.checkEntryConditions tick).2 = { s with was_long_ema_above_short := b } := by
  obtain ⟨b, hb⟩ := checkEMACrossover_snd s
  simp only [StrategyState.checkEntryConditions]
  split_ifs <;>
    first
      | exact ⟨s.was_long_ema_above_short, rfl⟩
      | exact ⟨b, hb⟩

/-- The state returned by `processMarketUpdate` is the indicator-updated state
with possibly new `was_long_ema_above_short_` and `entry_timestamp_us_`. -/
theorem processMarketUpdate_fst (sqrtFn : ℚ → ℚ) (s : StrategyState) (ts : ℤ) (tick : Tick) :
    ∃ b e, (s.processMarketUpdate sqrtFn ts tick).1 =
      { s.updateTick sqrtFn ts tick with
          was_long_ema_above_short := b, entry_timestamp_us := e } := by
  simp only [StrategyState.processMarketUpdate]
  set u := s.updateTick sqrtFn ts tick with hu
  obtain ⟨b, hb⟩ := checkEntryConditions_snd u tick
  split_ifs with h1 h2 h3 h4
  · exact ⟨u.was_long_ema_above_short, u.entry_timestamp_us, rfl⟩
  · exact ⟨u.was_long_ema_above_short, u.entry_timestamp_us, rfl⟩
  · exact ⟨b, ts, by simp [hb]⟩
  · exact ⟨b, u.entry_timestamp_us, by simp [hb]⟩
  · exact ⟨b, u.entry_timestamp_us, by simp [hb]⟩

theorem processMarketUpdate_position (sqrtFn : ℚ → ℚ) (s : StrategyState) (ts : ℤ)
    (tick : Tick) : (s.processMarketUpdate sqrtFn ts tick).1.position = s.position := by
  obtain ⟨b, e, h⟩ := processMarketUpdate_fst sqrtFn s ts tick
  rw [h]
  exact updateTick_position sqrtFn s ts tick

theorem processMarketUpdate_symbol (sqrtFn : ℚ → ℚ) (s : StrategyState) (ts : ℤ)
    (tick : Tick) : (s.processMarketUpdate sqrtFn ts tick).1.symbol = s.symbol := by
  obtain ⟨b, e, h⟩ := processMarketUpdate_fst sqrtFn s ts tick
  rw [h]
  exact updateTick_symbol sqrtFn s ts tick

/-- When the strategy is flat, every event it emits on a market update is a
LONG signal carrying the update's timestamp and the strategy's symbol. -/
theorem processMarketUpdate_signals_long (sqrtFn : ℚ → ℚ) (s : StrategyState) (ts : ℤ)
    (tick : Tick) (h : s.position = 0) :
    ∀ ev ∈ (s.processMarketUpdate sqrtFn ts tick).2,
      ∃ qty price, ev = .signal ts s.symbol .LONG qty price := by
  simp only [StrategyState.processMarketUpdate]
  set u := s.updateTick sqrtFn ts tick with hu
  have hpos : u.hasPosition = false := by
    simp [StrategyState.hasPosition, updateTick_position, hu, h]
  rw [hpos]
  simp only [Bool.false_eq_true, if_false]
  rcases hentry : u.checkEntryConditions tick with ⟨ok, u'⟩
  obtain ⟨b, hb⟩ := checkEntryConditions_snd u tick
  have hsym : u'.symbol = s.symbol := by
    have : u' = { u with was_long_ema_above_short := b } := by rw [← hb, hentry]
    rw [this]
    exact updateTick_symbol sqrtFn s ts tick
  split_ifs <;> simp_all

/-- **C2** (confirmed).  For every `sqrtFn`, symbol, initial classifier state
and market-update sequence, the inherited `position_` field of
`NewsMomentumStrategy` remains `0` (so `hasPosition()` is always false), and
every signal the strategy ever emits is a LONG signal — it never emits an
EXIT signal. -/
theorem strategy_position_stays_zero_and_signals_long (sqrtFn : ℚ → ℚ) (symbol : String)
    (regime0 : RegimeState) (mus : List (ℤ × Tick)) :
    (strategyRun sqrtFn (StrategyState.init symbol regime0) mus).1.position = 0 ∧
    (strategyRun sqrtFn (StrategyState.init symbol regime0) mus).1.hasPosition = false ∧
    ∀ ev ∈ (strategyRun sqrtFn (StrategyState.init symbol regime0) mus).2,
      ∃ ts qty price, ev = .signal ts symbol .LONG qty price := by
  have aux : ∀ (rest : List (ℤ × Tick)) (s : StrategyState) (acc : List Event),
      s.position = 0 → s.symbol = symbol →
      (∀ ev ∈ acc, ∃ ts qty price, ev = Event.signal ts symbol .LONG qty price) →
      (rest.foldl (fun acc mu =>
          let r := acc.1.processMarketUpdate sqrtFn mu.1 mu.2
          (r.1, acc.2 ++ r.2)) (s, acc)).1.position = 0 ∧
      ∀ ev ∈ (rest.foldl (fun acc mu =>
          let r := acc.1.processMarketUpdate sqrtFn mu.1 mu.2
          (r.1, acc.2 ++ r.2)) (s, acc)).2,
        ∃ ts qty price, ev = Event.signal ts symbol .LONG qty price := by
    intro rest
    induction rest with
    | nil => exact fun s acc hp _ hacc => ⟨hp, hacc⟩
    | cons mu rest ih =>
        intro s acc hp hsym hacc
        refine ih _ _ ?_ ?_ ?_
        · rw [processMarketUpdate_position]
          exact hp
        · rw [processMarketUpdate_symbol]
          exact hsym
        · intro ev hev
          rcases List.mem_append.mp hev with hev | hev
          · exact hacc ev hev
          · obtain ⟨qty, price, hev'⟩ :=
              processMarketUpdate_signals_long sqrtFn s mu.1 mu.2 hp ev hev
            exact ⟨mu.1, qty, price, by rw [hev', hsym]⟩
  have h := aux mus (StrategyState.init symbol regime0) [] rfl rfl (by simp)
  refine ⟨?_, ?_, ?_⟩
  · exact h.1
  · simp [StrategyState.hasPosition, strategyRun]
    simpa [strategyRun] using h.1
  · exact h.2

/-! ## The `was_long_ema_above_short_` bit (claim C7) -/

theorem checkEntryConditions_was_long (s : StrategyState) (tick : Tick) :
    (s.checkEntryConditions tick).2.was_long_ema_above_short =
      if s.checkVolumeSpike ∧ s.checkGapUp ∧ s.checkEMATrend tick.price
          ∧ s.indicators.getEMA 9 ≠ 0 ∧ s.indicators.getEMA 90 ≠ 0
      then decide (s.indicators.getEMA 90 < s.indicators.getEMA 9)
      else s.was_long_ema_above_short := by
  simp only [StrategyState.checkEntryConditions]
  by_cases h1 : s.checkVolumeSpike = true
  · by_cases h2 : s.checkGapUp = true
    · by_cases h3 : s.checkEMATrend tick.price = true
      · simp only [h1, h2, h3, not_true, if_neg, ite_false]
        by_cases h4 : s.indicators.getEMA 9 = 0 ∨ s.indicators.getEMA 90 = 0
        · have hcross : s.checkEMACrossover = (false, s) := by
            simp only [StrategyState.checkEMACrossover]
            rw [if_pos h4]
          rcases h4 with h4 | h4 <;> simp [hcross, h1, h2, h3, h4]
        · have hcross : s.checkEMACrossover =
              ((decide (s.indicators.getEMA 90 < s.indicators.getEMA 9)
                  && !s.was_long_ema_above_short)
                || decide (s.indicators.getEMA 90 < s.indicators.getEMA 9),
               { s with was_long_ema_above_short :=
                   decide (s.indicators.getEMA 90 < s.indicators.getEMA 9) }) := by
            simp only [StrategyState.checkEMACrossover]
            rw [if_neg h4]
          push_neg at h4
          rw [hcross]
          simp only [h1, h2, h3, h4.1, h4.2, ne_eq, not_false_iff, and_self, if_pos, true_and]
          split_ifs <;> rfl
      · simp [h1, h2, h3]
    · simp [h1, h2]
  · simp [h1]

/-- **C7 amended** (the claim as corrected).  `was_long_ema_above_short_` is
*not* refreshed on every market update: it is set to the current truth of
`EMA(9) > EMA(90)` exactly on updates where the strategy is flat, the
volume-spike, gap-up and EMA-trend checks all pass on the freshly updated
indicators, and both EMAs are non-zero (i.e. the evaluation reaches
`checkEMACrossover` past its zero guard); on every other update the bit keeps
its previous value. -/
theorem was_long_updated_only_when_crossover_reached (sqrtFn : ℚ → ℚ) (s : StrategyState)
    (ts : ℤ) (tick : Tick) :
    (s.processMarketUpdate sqrtFn ts tick).1.was_long_ema_above_short =
      (if s.hasPosition = false
          ∧ (s.updateTick sqrtFn ts tick).checkVolumeSpike
          ∧ (s.updateTick sqrtFn ts tick).checkGapUp
          ∧ (s.updateTick sqrtFn ts tick).checkEMATrend tick.price
          ∧ (s.updateTick sqrtFn ts tick).indicators.getEMA 9 ≠ 0
          ∧ (s.updateTick sqrtFn ts tick).indicators.getEMA 90 ≠ 0
       then decide ((s.updateTick sqrtFn ts tick).indicators.getEMA 90
                      < (s.updateTick sqrtFn ts tick).indicators.getEMA 9)
       else s.was_long_ema_above_short) := by
  have hwl := checkEntryConditions_was_long (s.updateTick sqrtFn ts tick) tick
  have hpos : (s.updateTick sqrtFn ts tick).hasPosition = s.hasPosition := by
    simp [StrategyState.hasPosition, updateTick_position]
  simp only [StrategyState.processMarketUpdate]
  split_ifs with h1 h2 h3 h4 <;>
    simp_all [updateTick_was_long]

unseal Rat.add Rat.mul Rat.sub Rat.inv in
/-- **C7 counterexample.**  The claim "on every market update the bit is
updated to the current truth of `EMA(9) > EMA(90)`" is false on the code: a
flat strategy fed the two ticks of `ce7Run` (prices 100 then 200, volume 1)
ends with `EMA(9) > EMA(90)` on the current tick, yet the bit is still
`false`, because entry evaluation bailed out at the relative-volume check
before reaching `checkEMACrossover`. -/
theorem was_long_stale_after_second_tick :
    ce7Run.1.was_long_ema_above_short = false ∧
    ce7Run.1.indicators.getEMA 90 < ce7Run.1.indicators.getEMA 9 := by
  constructor
  · decide
  · decide

/-! ## Order → Fill (claim C8) -/

/-- **C8** (confirmed).  Processing an Order event enqueues exactly one Fill
whose timestamp is `order.ts + latency_ms · 1000` microseconds (the source
truncates `latency_ms * 1000.0` to an integer; the hypothesis `hlat` states
that this truncation is exact, as it is for every integral-microsecond
latency such as the default 200 ms), whose fill price is the price of the
first stored tick of the symbol with `timestamp_us ≥` the fill timestamp
(falling back to the order price), and whose commission is
`fill_price · qty · 0.0001`. -/
theorem order_fill_fields (sqrtFn : ℚ → ℚ) (st : BacktesterState) (ts : ℤ) (sym : String)
    (dir : Direction) (qty price : ℚ) (ticks : List Tick)
    (hticks : mapFind? st.tick_data sym = some ticks)
    (_hsorted : ticks.Pairwise (fun a b => a.timestamp_us ≤ b.timestamp_us))
    (hlat : ((ratTrunc (st.latency_ms * 1000) : ℤ) : ℚ) = st.latency_ms * 1000) :
    (st.processEvent sqrtFn (.order ts sym dir qty price)).event_queue
        = heapPush st.event_queue (st.fillForOrder ts sym dir qty price) ∧
    ∃ fill_ts fp,
      st.fillForOrder ts sym dir qty price
          = .fill fill_ts sym dir qty fp (fp * qty * (1/10000)) ∧
      ((fill_ts : ℚ) = (ts : ℚ) + st.latency_ms * 1000) ∧
      fp = ((ticks.find? (fun t => fill_ts ≤ t.timestamp_us)).map Tick.price).getD price := by
  refine ⟨rfl, st.applyLatency ts,
    ((ticks.find? (fun t => st.applyLatency ts ≤ t.timestamp_us)).map Tick.price).getD price,
    ?_, ?_, rfl⟩
  · simp only [BacktesterState.fillForOrder, hticks]
    cases ticks.find? (fun t => st.applyLatency ts ≤ t.timestamp_us) <;> rfl
  · simp only [BacktesterState.applyLatency]
    push_cast
    rw [hlat]

unseal Rat.add Rat.mul Rat.sub Rat.inv in
/-- Witness for `order_fill_fields` at the concrete one-tick state
`ce5State` (latency 200 ms): the hypotheses hold and the enqueued fill has
the predicted fields. -/
theorem order_fill_fields_witness :
    mapFind? ce5State.tick_data "T" = some [⟨1, 100, 1, 3, 1⟩] ∧
    ((ratTrunc (ce5State.latency_ms * 1000) : ℤ) : ℚ) = ce5State.latency_ms * 1000 ∧
    (ce5State.processEvent ratSqrt (.order 4 "T" .LONG 10 100)).event_queue
        = heapPush ce5State.event_queue (ce5State.fillForOrder 4 "T" .LONG 10 100) := by
  refine ⟨by decide, by decide, ?_⟩
  exact (order_fill_fields ratSqrt ce5State 4 "T" .LONG 10 100 [⟨1, 100, 1, 3, 1⟩]
    (by decide) (by decide) (by decide)).1

/-! ## Position bookkeeping (claims C5 and C1) -/

/-- **C5 amended** (the claim as corrected).  A LONG fill applied while the
current quantity is 0 opens the position with `qty = fill.qty`,
`avg_price = fill.price`, `dir = LONG` and `entry_ts = fill.ts`; but the
recorded `entry_regime` is **not** the label reported by the strategy's
classifier: it is the hard-coded string `"TRENDING"` whenever a strategy is
registered for the symbol (and the pre-existing label otherwise). -/
theorem long_fill_opens_position_with_hardcoded_regime (st : BacktesterState) (ts : ℤ)
    (sym : String) (qty fp : ℚ)
    (hq : ((mapFind? st.positions sym).getD default).quantity = 0) :
    ∃ pos', mapFind? (st.updatePosition ts sym .LONG qty fp).positions sym = some pos' ∧
      pos'.quantity = qty ∧ pos'.avg_price = fp ∧ pos'.direction = .LONG ∧
      pos'.entry_timestamp_us = ts ∧
      pos'.entry_regime = (if (mapFind? st.strategies sym).isSome then "TRENDING"
                           else ((mapFind? st.positions sym).getD default).entry_regime) := by
  cases hfind : mapFind? st.positions sym with
  | none =>
      simp only [BacktesterState.updatePosition, hfind, Option.isNone_none, if_pos,
        mapFind?_insert_self, Option.getD_some]
      exact ⟨_, rfl, rfl, rfl, rfl, rfl, rfl⟩
  | some pos =>
      have hq' : pos.quantity = 0 := by simpa [hfind] using hq
      simp only [BacktesterState.updatePosition, hfind, Option.isNone_some,
        Bool.false_eq_true, if_false, Option.getD_some]
      rw [if_pos hq']
      simp only [mapFind?_insert_self]
      exact ⟨_, rfl, rfl, rfl, rfl, rfl, by simp [hfind]⟩

unseal Rat.add Rat.mul Rat.sub Rat.inv in
/-- Witness for `long_fill_opens_position_with_hardcoded_regime` at the
concrete state `ce5State` (no position yet, strategy registered). -/
theorem long_fill_opens_position_witness :
    ((mapFind? ce5State.positions "T").getD default).quantity = 0 ∧
    ∃ pos', mapFind? ce5Applied.positions "T" = some pos' ∧
      pos'.quantity = 10 ∧ pos'.avg_price = 100 ∧ pos'.direction = .LONG ∧
      pos'.entry_timestamp_us = 5 ∧
      pos'.entry_regime = (if (mapFind? ce5State.strategies "T").isSome then "TRENDING"
                           else ((mapFind? ce5State.positions "T").getD default).entry_regime) := by
  exact ⟨by decide,
    long_fill_opens_position_with_hardcoded_regime ce5State 5 "T" 10 100 (by decide)⟩

unseal Rat.add Rat.mul Rat.sub Rat.inv in
/-- **C5 counterexample.**  At the concrete state `ce5State` the registered
strategy's classifier reports CHOPPY (label `"CHOPPY"` under `regimeLabel`,
the spec-modelled labelling), yet the position opened by a LONG fill records
`entry_regime = "TRENDING"`: the engine does not read the classifier. -/
theorem hardcoded_regime_differs_from_classifier_label :
    ((mapFind? ce5State.strategies "T").map
        (fun s => regimeLabel s.regime_classifier.current_regime)) = some "CHOPPY" ∧
    ((mapFind? ce5Applied.positions "T").map Position.entry_regime) = some "TRENDING" ∧
    ("TRENDING" : String) ≠ "CHOPPY" := by
  refine ⟨by decide, by decide, by decide⟩

/-- **C1 amended** (the claim as corrected).  The engine's bookkeeping state
machine: a LONG fill with current quantity 0 opens the position at the fill
quantity; a LONG fill with current quantity ≠ 0 *adds* the fill quantity to
the open position (weighted-average price) — the code does not restrict LONG
fills to flat positions, and since the strategy's `position_` never changes
(see `strategy_position_stays_zero_and_signals_long`), a run really can apply
a second LONG fill to an open position (see
`second_long_fill_adds_to_open_position`); an EXIT fill zeroes a non-flat
position. -/
theorem updatePosition_state_machine (st : BacktesterState) (ts : ℤ) (sym : String)
    (qty fp : ℚ) (pos : Position) (hpos : mapFind? st.positions sym = some pos) :
    (pos.quantity = 0 →
      ∃ p', mapFind? (st.updatePosition ts sym .LONG qty fp).positions sym = some p' ∧
        p'.quantity = qty ∧ p'.avg_price = fp) ∧
    (pos.quantity ≠ 0 →
      ∃ p', mapFind? (st.updatePosition ts sym .LONG qty fp).positions sym = some p' ∧
        p'.quantity = pos.quantity + qty ∧
        p'.avg_price = (pos.avg_price * pos.quantity + fp * qty) / (pos.quantity + qty)) ∧
    (pos.quantity ≠ 0 →
      ∃ p', mapFind? (st.updatePosition ts sym .EXIT qty fp).positions sym = some p' ∧
        p'.quantity = 0) := by
  refine ⟨?_, ?_, ?_⟩
  · intro hq
    simp only [BacktesterState.updatePosition, hpos, Option.isNone_some,
      Bool.false_eq_true, if_false, Option.getD_some]
    rw [if_pos hq]
    exact ⟨_, mapFind?_insert_self _ _ _, rfl, rfl⟩
  · intro hq
    simp only [BacktesterState.updatePosition, hpos, Option.isNone_some,
      Bool.false_eq_true, if_false, Option.getD_some]
    rw [if_neg hq]
    exact ⟨_, mapFind?_insert_self _ _ _, rfl, rfl⟩
  · intro hq
    simp only [BacktesterState.updatePosition, hpos, Option.isNone_some,
      Bool.false_eq_true, if_false, Option.getD_some]
    rw [if_pos hq]
    simp only [BacktesterState.closePosition, hpos]
    rw [if_neg (by simpa using hq)]
    exact ⟨_, mapFind?_insert_self _ _ _, rfl⟩

unseal Rat.add Rat.mul Rat.sub Rat.inv in
/-- Witness for `updatePosition_state_machine` at a concrete state with an
open position of quantity 150. -/
theorem updatePosition_state_machine_witness :
    (mapFind? (ce5Applied.updatePosition 6 "T" .LONG 7 50).positions "T").map
        Position.quantity = some 17 ∧
    (mapFind? (ce5Applied.updatePosition 6 "T" .EXIT 10 50).positions "T").map
        Position.quantity = some 0 := by
  obtain ⟨p1, hp1, hq1, -⟩ := (updatePosition_state_machine ce5Applied 6 "T" 7 50
    ((mapFind? ce5Applied.positions "T").getD default) (by decide)).2.1 (by decide)
  obtain ⟨p2, hp2, hq2⟩ := (updatePosition_state_machine ce5Applied 6 "T" 10 50
    ((mapFind? ce5Applied.positions "T").getD default) (by decide)).2.2 (by decide)
  constructor
  · rw [hp1]
    simp only [Option.map_some']
    rw [hq1]
    decide
  · rw [hp2]
    simp only [Option.map_some']
    rw [hq2]

/-! ## Entry conditions (claim C6) -/

theorem checkEMACrossover_fst (s : StrategyState) (h : (s.checkEMACrossover).1 = true) :
    s.indicators.getEMA 90 < s.indicators.getEMA 9 := by
  simp only [StrategyState.checkEMACrossover] at h
  split_ifs at h with h4
  simp only [Bool.or_eq_true, Bool.and_eq_true, decide_eq_true_eq] at h
  tauto

/-- If `checkEntryConditions` succeeds, then every one of its constituent
checks held on the state it was evaluated on. -/
theorem checkEntryConditions_true (s : StrategyState) (tick : Tick)
    (h : (s.checkEntryConditions tick).1 = true) :
    s.checkVolumeSpike = true ∧ s.checkGapUp = true ∧ s.checkEMATrend tick.price = true ∧
    s.indicators.getEMA 90 < s.indicators.getEMA 9 ∧
    s.checkVWAP tick.price = true ∧ s.checkMACD = true ∧
    s.checkOrderBookImbalance tick = true ∧
    s.regime_classifier.current_regime = .TRENDING := by
  obtain ⟨b, hb⟩ := checkEMACrossover_snd s
  simp only [StrategyState.checkEntryConditions] at h
  split_ifs at h with h1 h2 h3 h4 h5 h6 h7 h8
  have hcross := checkEMACrossover_fst s h4
  rw [hb] at h5 h6 h7 h8
  exact ⟨h1, h2, h3, hcross, h5, h6, h7, by simpa using h8⟩

/-- **C6** (confirmed).  A LONG signal is emitted on a tick only if, on the
indicator and classifier state freshly updated with that tick (with the
default thresholds of `main.cpp`), all entry conditions hold simultaneously:
relative volume ≥ 5, gap-up percent ≥ 10, price above EMA(90) and EMA(200)
with EMA(90) > EMA(200), EMA(9) above EMA(90), price above VWAP, the MACD
histogram expanding, `bid_size / ask_size ≥ 1.5` with `ask_size ≠ 0`, and the
current regime TRENDING. -/
theorem long_signal_only_if_entry_conditions (sqrtFn : ℚ → ℚ) (s : StrategyState)
    (ts : ℤ) (tick : Tick) (ts' : ℤ) (sym' : String) (q pr : ℚ)
    (hrel : s.min_relative_volume = 5) (hgap : s.min_gap_up_percent = 10)
    (hba : s.min_bid_ask_ratio = 3/2)
    (hmem : Event.signal ts' sym' .LONG q pr ∈ (s.processMarketUpdate sqrtFn ts tick).2) :
    let s2 := (s.processMarketUpdate sqrtFn ts tick).1
    5 ≤ s2.indicators.getRelativeVolume ∧
    10 ≤ s2.indicators.getGapUpPercent ∧
    s2.indicators.getEMA 90 < tick.price ∧
    s2.indicators.getEMA 200 < tick.price ∧
    s2.indicators.getEMA 200 < s2.indicators.getEMA 90 ∧
    s2.indicators.getEMA 90 < s2.indicators.getEMA 9 ∧
    s2.indicators.getVWAP < tick.price ∧
    s2.indicators.isMACDHistogramExpanding = true ∧
    (tick.ask_size ≠ 0 ∧ 3/2 ≤ tick.bid_size / tick.ask_size) ∧
    s2.regime_classifier.current_regime = .TRENDING := by
  intro s2
  -- the LONG signal can only come from the entry branch with a successful check
  have hentry : ((s.updateTick sqrtFn ts tick).checkEntryConditions tick).1 = true := by
    by_contra hok
    revert hmem
    simp only [StrategyState.processMarketUpdate]
    split_ifs <;> simp
  obtain ⟨hspike, hgapok, htrend, hcrossed, hvwap, hmacd, hoba, hreg⟩ :=
    checkEntryConditions_true (s.updateTick sqrtFn ts tick) tick hentry
  -- transfer the checks (all independent of the bit and the entry timestamp)
  -- to the final state s2
  obtain ⟨b, e, hfst⟩ := processMarketUpdate_fst sqrtFn s ts tick
  have hind : s2.indicators = (s.updateTick sqrtFn ts tick).indicators := by
    show ((s.processMarketUpdate sqrtFn ts tick).1).indicators = _
    rw [hfst]
  have hregc : s2.regime_classifier = (s.updateTick sqrtFn ts tick).regime_classifier := by
    show ((s.processMarketUpdate sqrtFn ts tick).1).regime_classifier = _
    rw [hfst]
  have hrel' : (s.updateTick sqrtFn ts tick).min_relative_volume = 5 := hrel
  have hgap' : (s.updateTick sqrtFn ts tick).min_gap_up_percent = 10 := hgap
  have hba' : (s.updateTick sqrtFn ts tick).min_bid_ask_ratio = 3/2 := hba
  rw [StrategyState.checkVolumeSpike, hrel'] at hspike
  rw [StrategyState.checkGapUp, hgap'] at hgapok
  rw [StrategyState.checkEMATrend] at htrend
  rw [StrategyState.checkVWAP] at hvwap
  rw [StrategyState.checkOrderBookImbalance] at hoba
  rw [hind, hregc]
  split_ifs at htrend with hp0
  split_ifs at hvwap
  split_ifs at hoba with ha0
  simp only [Bool.and_eq_true, Indicators.isPriceAboveEMA, Indicators.isPriceAboveVWAP,
    decide_eq_true_eq] at htrend hvwap hoba
  exact ⟨by simpa using hspike, by simpa using hgapok, htrend.1.1.2, htrend.1.2.2,
    htrend.2, hcrossed, hvwap.2, by simpa [StrategyState.checkMACD] using hmacd,
    ⟨ha0, by simpa [hba'] using hoba⟩, hreg⟩

unseal Rat.add Rat.mul Rat.sub Rat.inv in
/-- Witness for `long_signal_only_if_entry_conditions`: on tick 19 of run A
the strategy (with the default thresholds) emits a LONG signal, and the
theorem applies — in particular the regime right after that tick is
TRENDING and the relative volume is at least 5. -/
theorem long_signal_only_if_entry_conditions_witness :
    (runAStrategyAfter 19).min_relative_volume = 5 ∧
    (runAStrategyAfter 19).min_gap_up_percent = 10 ∧
    (runAStrategyAfter 19).min_bid_ask_ratio = 3/2 ∧
    Event.signal 20 "TICKER" .LONG 150 (100 * (mkRat 11 10) ^ 19)
      ∈ ((runAStrategyAfter 19).processMarketUpdate ratSqrt 20
          (runATicks.getD 19 default)).2 ∧
    ((runAStrategyAfter 19).processMarketUpdate ratSqrt 20
        (runATicks.getD 19 default)).1.regime_classifier.current_regime = .TRENDING ∧
    5 ≤ ((runAStrategyAfter 19).processMarketUpdate ratSqrt 20
        (runATicks.getD 19 default)).1.indicators.getRelativeVolume := by
  have h := long_signal_only_if_entry_conditions ratSqrt (runAStrategyAfter 19) 20
    (runATicks.getD 19 default) 20 "TICKER" 150 (100 * (mkRat 11 10) ^ 19)
    (by decide) (by decide) (by decide) (by decide)
  exact ⟨by decide, by decide, by decide, by decide,
    h.2.2.2.2.2.2.2.2.2, h.1⟩

/-! ## Concrete counterexamples from runs A and B (claims C1, C3, C4) -/

unseal Rat.add Rat.mul Rat.sub Rat.inv in
/-- **C1 counterexample.**  In the concrete backtest of run A the dispatch
trace's 27th event (index 26) is a LONG fill that is applied while the
TICKER position already has quantity 150 (opened by the 26th event, the
first LONG fill), raising it to 300: a LONG fill does occur with a non-zero
position quantity, and the position *is* increased by a second LONG fill
while open — the strategy's flat `hasPosition` never blocks the second
entry. -/
theorem second_long_fill_adds_to_open_position :
    runAResult.2.getD 26 default
        = .fill 200021 "TICKER" .LONG 150 (100 * (mkRat 11 10) ^ 20)
            ((100 * (mkRat 11 10) ^ 20) * 150 * (1/10000)) ∧
    (mapFind? (runAAfter 26).positions "TICKER").map Position.quantity = some 150 ∧
    (mapFind? (runAAfter 27).positions "TICKER").map Position.quantity = some 300 := by
  refine ⟨by decide, by decide, by decide⟩

unseal Rat.add Rat.mul Rat.sub Rat.inv in
/-- **C4 counterexample.**  The run-A backtest produces exactly one
`TradeRecord` — the end-of-stream force-close — and it has
`entry_ts = 200020` (the latency-shifted fill time of the first entry) but
`exit_ts = 21` (the last tick's timestamp): `exit_ts ≥ entry_ts` fails. -/
theorem force_closed_trade_exit_before_entry :
    runAResult.1.trade_log.map
        (fun t => (t.entry_timestamp_us, t.exit_timestamp_us)) = [(200020, 21)] ∧
    (21 : ℤ) < 200020 := by
  refine ⟨by decide, by decide⟩

unseal Rat.add Rat.mul Rat.sub Rat.inv in
/-- **C3 counterexample.**  In run B the four market updates are enqueued in
tick order — volume 1 (ts 1), volume 2 (ts 10), volume 3 (ts 10), volume 4
(ts 10) — yet the dispatch trace pops the volume-3 tick *before* the
volume-2 tick although both carry timestamp 10: equal-timestamp events are
not dispatched in enqueue (FIFO) order.  (`std::priority_queue` carries no
sequence number; the pop-side sift of the binary heap reorders ties.) -/
theorem equal_timestamp_events_not_fifo :
    runBTicks = [⟨1, 1, 1, 3, 1⟩, ⟨10, 1, 2, 3, 1⟩, ⟨10, 1, 3, 3, 1⟩, ⟨10, 1, 4, 3, 1⟩] ∧
    runBResult.2 = [.marketUpdate 1 ⟨1, 1, 1, 3, 1⟩, .marketUpdate 10 ⟨10, 1, 3, 3, 1⟩,
                    .marketUpdate 10 ⟨10, 1, 2, 3, 1⟩, .marketUpdate 10 ⟨10, 1, 4, 3, 1⟩] := by
  refine ⟨by decide, by decide⟩

/-! ## Correctness of the heap model (towards claims C3 and C4)

The lemmas below establish that the libstdc++ `push_heap` / `pop_heap`
walks modelled by `heapPush` / `heapPop` preserve the min-heap order
`heapOrd` and that the popped element is the minimum, which is what makes
the dispatch order of `Backtester::run` non-decreasing in timestamp. -/

theorem nthE_set_self (q : List Event) (i : ℕ) (e : Event) (h : i < q.length) :
    nthE (q.set i e) i = e := by
  simp [nthE, List.getD_eq_getElem?_getD, List.getElem?_set_self, h]

theorem nthE_set_ne (q : List Event) (i j : ℕ) (e : Event) (h : i ≠ j) :
    nthE (q.set i e) j = nthE q j := by
  simp [nthE, List.getD_eq_getElem?_getD, List.getElem?_set_ne h]

theorem nthE_mem (q : List Event) (i : ℕ) (h : i < q.length) : nthE q i ∈ q := by
  have hg : q[i]? = some q[i] := List.getElem?_eq_getElem h
  simp only [nthE, List.getD_eq_getElem?_getD, hg, Option.getD_some]
  exact List.getElem_mem h

theorem nthE_dropLast (q : List Event) (i : ℕ) (h : i < q.length - 1) :
    nthE q.dropLast i = nthE q i := by
  have h2 : q.dropLast[i]? = q[i]? := by
    rw [List.getElem?_dropLast]
    simp [h]
  simp [nthE, List.getD_eq_getElem?_getD, h2]

theorem nthE_append_left (q r : List Event) (i : ℕ) (h : i < q.length) :
    nthE (q ++ r) i = nthE q i := by
  simp [nthE, List.getD_eq_getElem?_getD, List.getElem?_append_left h]

theorem nthE_append_last (q : List Event) (e : Event) :
    nthE (q ++ [e]) q.length = e := by
  have h2 : (q ++ [e])[q.length]? = some e := by
    rw [List.getElem?_append_right (le_refl _)]
    simp
  simp [nthE, List.getD_eq_getElem?_getD, h2]

theorem heapSiftUpGo_length (value : Event) :
    ∀ (fuel : ℕ) (q : List Event) (hole : ℕ),
      (heapSiftUpGo value fuel q hole).length = q.length := by
  intro fuel
  induction fuel with
  | zero => intro q hole; simp [heapSiftUpGo]
  | succ n ih =>
      intro q hole
      simp only [heapSiftUpGo]
      split
      · simp
      · split
        · rw [ih]; simp
        · simp

theorem heapSiftUpGo_mem (value : Event) :
    ∀ (fuel : ℕ) (q : List Event) (hole : ℕ), hole < q.length →
      ∀ x ∈ heapSiftUpGo value fuel q hole, x ∈ q ∨ x = value := by
  intro fuel
  induction fuel with
  | zero =>
      intro q hole _ x hx
      simp only [heapSiftUpGo] at hx
      exact List.mem_or_eq_of_mem_set hx
  | succ n ih =>
      intro q hole hlen x hx
      simp only [heapSiftUpGo] at hx
      split at hx
      · exact List.mem_or_eq_of_mem_set hx
      · split at hx
        · have hpar : (hole - 1) / 2 < (q.set hole (nthE q ((hole - 1) / 2))).length := by
            rw [List.length_set]; omega
          rcases ih _ _ hpar x hx with h | h
          · rcases List.mem_or_eq_of_mem_set h with h2 | h2
            · exact Or.inl h2
            · exact Or.inl (h2 ▸ nthE_mem q _ (by omega))
          · exact Or.inr h
        · exact List.mem_or_eq_of_mem_set hx

theorem heapWalkDownGo_shape :
    ∀ (fuel : ℕ) (q : List Event) (hole : ℕ), hole < q.length →
      (heapWalkDownGo fuel q hole).1.length = q.length ∧
      (heapWalkDownGo fuel q hole).2 < q.length ∧
      ∀ x ∈ (heapWalkDownGo fuel q hole).1, x ∈ q := by
  intro fuel
  induction fuel with
  | zero =>
      intro q hole hlen
      exact ⟨rfl, hlen, fun x hx => hx⟩
  | succ n ih =>
      intro q hole hlen
      simp only [heapWalkDownGo]
      split
      · next hcond =>
          set sc := if ets (nthE q (2 * (hole + 1) - 1)) < ets (nthE q (2 * (hole + 1)))
              then 2 * (hole + 1) - 1 else 2 * (hole + 1) with hsc
          have hsclt : sc < q.length := by
            have : 2 * (hole + 1) ≤ q.length - 1 := by omega
            rw [hsc]; split <;> omega
          have hlen2 : sc < (q.set hole (nthE q sc)).length := by
            rw [List.length_set]; exact hsclt
          obtain ⟨h1, h2, h3⟩ := ih (q.set hole (nthE q sc)) sc hlen2
          refine ⟨by rw [h1, List.length_set], by rw [List.length_set] at h2; exact h2, ?_⟩
          intro x hx
          rcases List.mem_or_eq_of_mem_set (h3 x hx) with h | h
          · exact h
          · exact h ▸ nthE_mem q sc hsclt
      · exact ⟨rfl, hlen, fun x hx => hx⟩

theorem heapAdjust_shape (q : List Event) (value : Event) (h0 : 0 < q.length) :
    (heapAdjust q value).length = q.length ∧
    ∀ x ∈ heapAdjust q value, x ∈ q ∨ x = value := by
  obtain ⟨h1, h2, h3⟩ := heapWalkDownGo_shape q.length q 0 h0
  rcases hw : heapWalkDownGo q.length q 0 with ⟨q1, h1i⟩
  rw [hw] at h1 h2 h3
  simp only at h1 h2 h3
  simp only [heapAdjust, heapWalkDown, hw]
  split
  · next heven =>
      constructor
      · rw [heapSiftUp, heapSiftUpGo_length, List.length_set, h1]
      · intro x hx
        have hlt : 2 * (h1i + 1) - 1 < (q1.set h1i (nthE q1 (2 * (h1i + 1) - 1))).length := by
          rw [List.length_set, h1]
          omega
        rcases heapSiftUpGo_mem value _ _ _ hlt x hx with h | h
        · rcases List.mem_or_eq_of_mem_set h with h4 | h4
          · exact Or.inl (h3 x h4)
          · refine Or.inl (h3 _ (h4 ▸ nthE_mem q1 _ ?_))
            rw [h1]; omega
        · exact Or.inr h
  · constructor
    · rw [heapSiftUp, heapSiftUpGo_length, h1]
    · intro x hx
      have hlt : h1i < q1.length := by rw [h1]; exact h2
      rcases heapSiftUpGo_mem value _ _ _ hlt x hx with h | h
      · exact Or.inl (h3 x h)
      · exact Or.inr h

theorem heapPop_shape (q : List Event) (e : Event) (q' : List Event)
    (h : heapPop q = some (e, q')) :
    e = nthE q 0 ∧ q'.length + 1 = q.length ∧ e ∈ q ∧ ∀ x ∈ q', x ∈ q := by
  match q with
  | [] => simp [heapPop] at h
  | [a] =>
      simp only [heapPop, Option.some.injEq, Prod.mk.injEq] at h
      obtain ⟨he, hq'⟩ := h
      subst he; subst hq'
      exact ⟨rfl, rfl, List.mem_singleton.mpr rfl, by simp⟩
  | a :: b :: rest =>
      simp only [heapPop, Option.some.injEq, Prod.mk.injEq] at h
      obtain ⟨he, hq'⟩ := h
      have hlen : 0 < (a :: b :: rest).dropLast.length := by
        simp [List.length_dropLast]
      obtain ⟨hl, hm⟩ := heapAdjust_shape (a :: b :: rest).dropLast
        (nthE (a :: b :: rest) ((a :: b :: rest).length - 1)) hlen
      subst he; subst hq'
      refine ⟨rfl, ?_, ?_, ?_⟩
      · rw [hl, List.length_dropLast]; simp
      · exact nthE_mem _ 0 (by simp)
      · intro x hx
        rcases hm x hx with h | h
        · exact List.dropLast_subset _ h
        · exact h ▸ nthE_mem _ _ (by simp)

/-- Dropping `value` into the hole keeps the heap ordered, provided every
edge not involving the hole is ordered (`hA`), `value` is below the hole's
children (`hB`), and at or above the hole's parent (`hP`). -/
theorem heapOrd_set_hole (q : List Event) (hole : ℕ) (value : Event)
    (hlen : hole < q.length)
    (hA : ∀ i, 0 < i → i < q.length → i ≠ hole → (i - 1) / 2 ≠ hole →
        ets (nthE q ((i - 1) / 2)) ≤ ets (nthE q i))
    (hB : ∀ c, 0 < c → c < q.length → (c - 1) / 2 = hole →
        ets value ≤ ets (nthE q c))
    (hP : 0 < hole → ets (nthE q ((hole - 1) / 2)) ≤ ets value) :
    heapOrd (q.set hole value) := by
  intro i hi0 hilen
  rw [List.length_set] at hilen
  by_cases hih : i = hole
  · have h1 : nthE (q.set hole value) i = value := by
      rw [hih]; exact nthE_set_self q hole value hlen
    have h2 : nthE (q.set hole value) ((i - 1) / 2) = nthE q ((i - 1) / 2) :=
      nthE_set_ne q hole _ value (by omega)
    rw [h1, h2, hih]
    exact hP (by omega)
  · by_cases hpar : (i - 1) / 2 = hole
    · have h1 : nthE (q.set hole value) i = nthE q i := nthE_set_ne q hole i value (Ne.symm hih)
      have h2 : nthE (q.set hole value) ((i - 1) / 2) = value := by
        rw [hpar]; exact nthE_set_self q hole value hlen
      rw [h1, h2]
      exact hB i hi0 hilen hpar
    · have h1 : nthE (q.set hole value) i = nthE q i := nthE_set_ne q hole i value (Ne.symm hih)
      have h2 : nthE (q.set hole value) ((i - 1) / 2) = nthE q ((i - 1) / 2) :=
        nthE_set_ne q hole _ value (Ne.symm hpar)
      rw [h1, h2]
      exact hA i hi0 hilen hih hpar

/-- The sift-up walk of `__push_heap` restores the heap order.  `hA` says
every edge not involving the hole is ordered; `hB` says `value`, and the
hole's parent, are below the hole's children. -/
theorem heapSiftUpGo_heapOrd (value : Event) :
    ∀ (fuel : ℕ) (q : List Event) (hole : ℕ),
      hole ≤ fuel → hole < q.length →
      (∀ i, 0 < i → i < q.length → i ≠ hole → (i - 1) / 2 ≠ hole →
        ets (nthE q ((i - 1) / 2)) ≤ ets (nthE q i)) →
      (∀ c, 0 < c → c < q.length → (c - 1) / 2 = hole →
        ets value ≤ ets (nthE q c) ∧
        (0 < hole → ets (nthE q ((hole - 1) / 2)) ≤ ets (nthE q c))) →
      heapOrd (heapSiftUpGo value fuel q hole) := by
  intro fuel
  induction fuel with
  | zero =>
      intro q hole hfuel hlen hA hB
      have h0 : hole = 0 := Nat.le_zero.mp hfuel
      subst h0
      simp only [heapSiftUpGo]
      exact heapOrd_set_hole q 0 value hlen hA
        (fun c hc0 hclen hcpar => (hB c hc0 hclen hcpar).1)
        (fun h => absurd h (by omega))
  | succ n ih =>
      intro q hole hfuel hlen hA hB
      simp only [heapSiftUpGo]
      split
      · next h0 =>
          subst h0
          exact heapOrd_set_hole q 0 value hlen hA
            (fun c hc0 hclen hcpar => (hB c hc0 hclen hcpar).1)
            (fun h => absurd h (by omega))
      · next h0 =>
          split
          · next hcmp =>
              apply ih
              · omega
              · rw [List.length_set]; omega
              · intro i hi0 hilen hine hipne
                rw [List.length_set] at hilen
                by_cases hih : i = hole
                · exfalso; apply hipne; omega
                · by_cases hpar2 : (i - 1) / 2 = hole
                  · have h1 : nthE (q.set hole (nthE q ((hole - 1) / 2))) ((i - 1) / 2)
                        = nthE q ((hole - 1) / 2) := by
                      rw [hpar2]
                      exact nthE_set_self q hole _ hlen
                    have h2 : nthE (q.set hole (nthE q ((hole - 1) / 2))) i = nthE q i :=
                      nthE_set_ne q hole i _ (Ne.symm hih)
                    rw [h1, h2]
                    exact (hB i hi0 hilen hpar2).2 (by omega)
                  · have h1 : nthE (q.set hole (nthE q ((hole - 1) / 2))) ((i - 1) / 2)
                        = nthE q ((i - 1) / 2) := nthE_set_ne q hole _ _ (Ne.symm hpar2)
                    have h2 : nthE (q.set hole (nthE q ((hole - 1) / 2))) i = nthE q i :=
                      nthE_set_ne q hole i _ (Ne.symm hih)
                    rw [h1, h2]
                    exact hA i hi0 hilen hih hpar2
              · intro c hc0 hclen hcpar
                rw [List.length_set] at hclen
                by_cases hch : c = hole
                · have h1 : nthE (q.set hole (nthE q ((hole - 1) / 2))) c
                      = nthE q ((hole - 1) / 2) := by
                    rw [hch]; exact nthE_set_self q hole _ hlen
                  constructor
                  · rw [h1]; exact le_of_lt hcmp
                  · intro hp0
                    have hgp : nthE (q.set hole (nthE q ((hole - 1) / 2)))
                        (((hole - 1) / 2 - 1) / 2) = nthE q (((hole - 1) / 2 - 1) / 2) :=
                      nthE_set_ne q hole _ _ (by omega)
                    rw [h1, hgp]
                    exact hA ((hole - 1) / 2) hp0 (by omega) (by omega) (by omega)
                · have h1 : nthE (q.set hole (nthE q ((hole - 1) / 2))) c = nthE q c :=
                    nthE_set_ne q hole c _ (Ne.symm hch)
                  have hAc : ets (nthE q ((hole - 1) / 2)) ≤ ets (nthE q c) := by
                    have h3 := hA c hc0 hclen hch (by omega)
                    rwa [hcpar] at h3
                  constructor
                  · rw [h1]; exact le_trans (le_of_lt hcmp) hAc
                  · intro hp0
                    have hgp : nthE (q.set hole (nthE q ((hole - 1) / 2)))
                        (((hole - 1) / 2 - 1) / 2) = nthE q (((hole - 1) / 2 - 1) / 2) :=
                      nthE_set_ne q hole _ _ (by omega)
                    rw [h1, hgp]
                    refine le_trans ?_ hAc
                    exact hA ((hole - 1) / 2) hp0 (by omega) (by omega) (by omega)
          · next hcmp =>
              exact heapOrd_set_hole q hole value hlen hA
                (fun c hc0 hclen hcpar => (hB c hc0 hclen hcpar).1)
                (fun hp0 => le_of_not_lt hcmp)

theorem heapPush_length (q : List Event) (e : Event) :
    (heapPush q e).length = q.length + 1 := by
  rw [heapPush, heapSiftUp, heapSiftUpGo_length]
  simp

theorem heapPush_mem (q : List Event) (e : Event) :
    ∀ x ∈ heapPush q e, x ∈ q ∨ x = e := by
  intro x hx
  rw [heapPush, heapSiftUp] at hx
  rcases heapSiftUpGo_mem e q.length (q ++ [e]) q.length (by simp) x hx with h | h
  · rcases List.mem_append.mp h with h2 | h2
    · exact Or.inl h2
    · exact Or.inr (List.mem_singleton.mp h2)
  · exact Or.inr h

theorem heapPush_heapOrd (q : List Event) (e : Event) (h : heapOrd q) :
    heapOrd (heapPush q e) := by
  rw [heapPush, heapSiftUp]
  apply heapSiftUpGo_heapOrd
  · exact le_refl _
  · simp
  · intro i hi0 hilen hine hipne
    rw [List.length_append, List.length_singleton] at hilen
    have hi : i < q.length := by omega
    have hp : (i - 1) / 2 < q.length := by omega
    rw [nthE_append_left q [e] _ hp, nthE_append_left q [e] _ hi]
    exact h i hi0 hi
  · intro c hc0 hclen hcpar
    exfalso
    rw [List.length_append, List.length_singleton] at hclen
    omega

/-- The descending walk of `__adjust_heap` keeps all non-hole edges ordered
(`A`, second conjunct), keeps the hole's children above the hole's parent
(`C`, third conjunct), and exits with the hole below the last internal
node. -/
theorem heapWalkDownGo_spec :
    ∀ (fuel : ℕ) (q : List Event) (hole : ℕ),
      q.length ≤ fuel + hole → hole < q.length →
      (∀ i, 0 < i → i < q.length → i ≠ hole → (i - 1) / 2 ≠ hole →
        ets (nthE q ((i - 1) / 2)) ≤ ets (nthE q i)) →
      (∀ c, 0 < c → c < q.length → (c - 1) / 2 = hole → 0 < hole →
        ets (nthE q ((hole - 1) / 2)) ≤ ets (nthE q c)) →
      ¬ ((heapWalkDownGo fuel q hole).2 < (q.length - 1) / 2) ∧
      (∀ i, 0 < i → i < q.length → i ≠ (heapWalkDownGo fuel q hole).2 →
        (i - 1) / 2 ≠ (heapWalkDownGo fuel q hole).2 →
        ets (nthE (heapWalkDownGo fuel q hole).1 ((i - 1) / 2))
          ≤ ets (nthE (heapWalkDownGo fuel q hole).1 i)) ∧
      (∀ c, 0 < c → c < q.length → (c - 1) / 2 = (heapWalkDownGo fuel q hole).2 →
        0 < (heapWalkDownGo fuel q hole).2 →
        ets (nthE (heapWalkDownGo fuel q hole).1 (((heapWalkDownGo fuel q hole).2 - 1) / 2))
          ≤ ets (nthE (heapWalkDownGo fuel q hole).1 c)) := by
  intro fuel
  induction fuel with
  | zero =>
      intro q hole hfuel hlen hA hC
      exact absurd hlen (by omega)
  | succ n ih =>
      intro q hole hfuel hlen hA hC
      simp only [heapWalkDownGo]
      split
      · next hcond =>
          set m := (if ets (nthE q (2 * (hole + 1) - 1)) < ets (nthE q (2 * (hole + 1)))
              then 2 * (hole + 1) - 1 else 2 * (hole + 1)) with hm
          have hm12 : m = 2 * hole + 1 ∨ m = 2 * hole + 2 := by
            rw [hm]; split <;> omega
          have hmlen : m < q.length := by
            rcases hm12 with h | h <;> omega
          have hmpar : (m - 1) / 2 = hole := by
            rcases hm12 with h | h <;> omega
          have hmin1 : ets (nthE q m) ≤ ets (nthE q (2 * (hole + 1) - 1)) := by
            rw [hm]; split
            · exact le_refl _
            · next hlt => exact le_of_not_lt hlt
          have hmin2 : ets (nthE q m) ≤ ets (nthE q (2 * (hole + 1))) := by
            rw [hm]; split
            · next hlt => exact le_of_lt hlt
            · exact le_refl _
          have hA' : ∀ i, 0 < i → i < (q.set hole (nthE q m)).length → i ≠ m →
              (i - 1) / 2 ≠ m →
              ets (nthE (q.set hole (nthE q m)) ((i - 1) / 2))
                ≤ ets (nthE (q.set hole (nthE q m)) i) := by
            intro i hi0 hilen hine hipne
            rw [List.length_set] at hilen
            by_cases hih : i = hole
            · have h1 : nthE (q.set hole (nthE q m)) i = nthE q m := by
                rw [hih]; exact nthE_set_self q hole _ hlen
              have h2 : nthE (q.set hole (nthE q m)) ((i - 1) / 2) = nthE q ((i - 1) / 2) :=
                nthE_set_ne q hole _ _ (by omega)
              rw [h1, h2, hih]
              exact hC m (by omega) hmlen hmpar (by omega)
            · by_cases hpar2 : (i - 1) / 2 = hole
              · have h1 : nthE (q.set hole (nthE q m)) i = nthE q i :=
                  nthE_set_ne q hole i _ (Ne.symm hih)
                have h2 : nthE (q.set hole (nthE q m)) ((i - 1) / 2) = nthE q m := by
                  rw [hpar2]; exact nthE_set_self q hole _ hlen
                rw [h1, h2]
                rcases hm12 with h | h
                · have h3 : i = 2 * (hole + 1) := by omega
                  rw [h3]
                  exact hmin2
                · have h3 : i = 2 * (hole + 1) - 1 := by omega
                  rw [h3]
                  exact hmin1
              · have h1 : nthE (q.set hole (nthE q m)) i = nthE q i :=
                  nthE_set_ne q hole i _ (Ne.symm hih)
                have h2 : nthE (q.set hole (nthE q m)) ((i - 1) / 2) = nthE q ((i - 1) / 2) :=
                  nthE_set_ne q hole _ _ (Ne.symm hpar2)
                rw [h1, h2]
                exact hA i hi0 hilen hih hpar2
          have hC' : ∀ c, 0 < c → c < (q.set hole (nthE q m)).length → (c - 1) / 2 = m →
              0 < m →
              ets (nthE (q.set hole (nthE q m)) ((m - 1) / 2))
                ≤ ets (nthE (q.set hole (nthE q m)) c) := by
            intro c hc0 hclen hcpar hm0
            rw [List.length_set] at hclen
            have h1 : nthE (q.set hole (nthE q m)) ((m - 1) / 2) = nthE q m := by
              rw [hmpar]; exact nthE_set_self q hole _ hlen
            have h2 : nthE (q.set hole (nthE q m)) c = nthE q c :=
              nthE_set_ne q hole c _ (by omega)
            rw [h1, h2]
            have h3 := hA c hc0 hclen (by omega) (by omega)
            rwa [hcpar] at h3
          obtain ⟨e1, e2, e3⟩ := ih (q.set hole (nthE q m)) m
            (by rw [List.length_set]; omega)
            (by rw [List.length_set]; exact hmlen) hA' hC'
          simp only [List.length_set] at e1 e2 e3
          exact ⟨e1, e2, e3⟩
      · next hcond =>
          exact ⟨hcond, hA, hC⟩

/-- `__adjust_heap` with the hole at the root restores the heap order, given
that every edge not involving the root is ordered. -/
theorem heapAdjust_heapOrd (q : List Event) (value : Event) (h0 : 0 < q.length)
    (hA : ∀ i, 0 < i → i < q.length → i ≠ 0 → (i - 1) / 2 ≠ 0 →
        ets (nthE q ((i - 1) / 2)) ≤ ets (nthE q i)) :
    heapOrd (heapAdjust q value) := by
  obtain ⟨hsh1, hsh2, _⟩ := heapWalkDownGo_shape q.length q 0 h0
  obtain ⟨e1, e2, e3⟩ := heapWalkDownGo_spec q.length q 0 (by omega) h0
    (fun i hi0 hilen hine hipne => hA i hi0 hilen hine hipne)
    (fun c hc0 hclen hcpar hfalse => absurd hfalse (by omega))
  rcases hw : heapWalkDownGo q.length q 0 with ⟨q1, h1⟩
  rw [hw] at hsh1 hsh2 e1 e2 e3
  simp only at hsh1 hsh2 e1 e2 e3
  simp only [heapAdjust, heapWalkDown, hw]
  split
  · next heven =>
      obtain ⟨hev, hh1⟩ := heven
      rw [hsh1] at hev hh1
      rw [heapSiftUp]
      apply heapSiftUpGo_heapOrd
      · exact le_refl _
      · rw [List.length_set, hsh1]; omega
      · intro i hi0 hilen hine hipne
        rw [List.length_set, hsh1] at hilen
        by_cases hih : i = h1
        · have hx1 : nthE (q1.set h1 (nthE q1 (2 * (h1 + 1) - 1))) i
              = nthE q1 (2 * (h1 + 1) - 1) := by
            rw [hih]
            exact nthE_set_self q1 h1 _ (by rw [hsh1]; exact hsh2)
          have hx2 : nthE (q1.set h1 (nthE q1 (2 * (h1 + 1) - 1))) ((i - 1) / 2)
              = nthE q1 ((i - 1) / 2) := nthE_set_ne q1 h1 _ _ (by omega)
          rw [hx1, hx2, hih]
          exact e3 (2 * (h1 + 1) - 1) (by omega) (by omega) (by omega) (by omega)
        · by_cases hpar2 : (i - 1) / 2 = h1
          · exfalso
            omega
          · have hx1 : nthE (q1.set h1 (nthE q1 (2 * (h1 + 1) - 1))) i = nthE q1 i :=
              nthE_set_ne q1 h1 i _ (Ne.symm hih)
            have hx2 : nthE (q1.set h1 (nthE q1 (2 * (h1 + 1) - 1))) ((i - 1) / 2)
                = nthE q1 ((i - 1) / 2) := nthE_set_ne q1 h1 _ _ (Ne.symm hpar2)
            rw [hx1, hx2]
            exact e2 i hi0 hilen hih hpar2
      · intro c hc0 hclen hcpar
        exfalso
        rw [List.length_set, hsh1] at hclen
        omega
  · next hnc =>
      rw [hsh1] at hnc
      rw [heapSiftUp]
      apply heapSiftUpGo_heapOrd
      · exact le_refl _
      · rw [hsh1]; exact hsh2
      · intro i hi0 hilen hine hipne
        exact e2 i hi0 (hsh1 ▸ hilen) hine hipne
      · intro c hc0 hclen hcpar
        exfalso
        rw [hsh1] at hclen
        omega

theorem heapPop_heapOrd (q : List Event) (e : Event) (q' : List Event)
    (hq : heapOrd q) (h : heapPop q = some (e, q')) : heapOrd q' := by
  match q with
  | [] => simp [heapPop] at h
  | [a] =>
      simp only [heapPop, Option.some.injEq, Prod.mk.injEq] at h
      obtain ⟨_, hq'⟩ := h
      subst hq'
      intro i hi0 hilen
      simp at hilen
  | a :: b :: rest =>
      simp only [heapPop, Option.some.injEq, Prod.mk.injEq] at h
      obtain ⟨_, hq'⟩ := h
      subst hq'
      apply heapAdjust_heapOrd
      · simp
      · intro i hi0 hilen hine hipne
        have hlen2 : (a :: b :: rest).dropLast.length = (a :: b :: rest).length - 1 :=
          List.length_dropLast _
        rw [hlen2] at hilen
        rw [nthE_dropLast _ _ (by omega), nthE_dropLast _ _ hilen]
        exact hq i hi0 (by omega)

theorem heapOrd_le_root (q : List Event) (hq : heapOrd q) :
    ∀ i, i < q.length → ets (nthE q 0) ≤ ets (nthE q i) := by
  intro i
  induction i using Nat.strong_induction_on with
  | _ i ih =>
      intro hi
      rcases Nat.eq_zero_or_pos i with h0 | h0
      · rw [h0]
      · exact le_trans (ih ((i - 1) / 2) (by omega) (by omega)) (hq i h0 hi)

theorem heapOrd_root_min (q : List Event) (hq : heapOrd q) (x : Event) (hx : x ∈ q) :
    ets (nthE q 0) ≤ ets x := by
  obtain ⟨i, hi, hix⟩ := List.mem_iff_getElem.mp hx
  have hx2 : nthE q i = x := by
    have hg : q[i]? = some q[i] := List.getElem?_eq_getElem hi
    simp [nthE, List.getD_eq_getElem?_getD, hg, hix]
  exact hx2 ▸ heapOrd_le_root q hq i hi

theorem foldl_heapPush_spec (evs : List Event) :
    ∀ q : List Event, heapOrd q →
      heapOrd (evs.foldl heapPush q) ∧
      ∀ x ∈ evs.foldl heapPush q, x ∈ q ∨ x ∈ evs := by
  induction evs with
  | nil => exact fun q hq => ⟨hq, fun x hx => Or.inl hx⟩
  | cons e rest ih =>
      intro q hq
      obtain ⟨h1, h2⟩ := ih (heapPush q e) (heapPush_heapOrd q e hq)
      refine ⟨h1, fun x hx => ?_⟩
      rcases h2 x hx with h | h
      · rcases heapPush_mem q e x h with h3 | h3
        · exact Or.inl h3
        · exact Or.inr (by simp [h3])
      · exact Or.inr (by simp [h])

theorem foldl_heapPush_heapOrd (evs : List Event) :
    ∀ q : List Event, heapOrd q → heapOrd (evs.foldl heapPush q) := by
  induction evs with
  | nil => exact fun q hq => hq
  | cons e rest ih =>
      intro q hq
      exact ih (heapPush q e) (heapPush_heapOrd q e hq)

theorem foldl_heapPush_mem (evs : List Event) :
    ∀ (q : List Event) (x : Event), x ∈ evs.foldl heapPush q → x ∈ q ∨ x ∈ evs := by
  induction evs with
  | nil => intro q x hx; exact Or.inl hx
  | cons e rest ih =>
      intro q x hx
      rcases ih (heapPush q e) x hx with h | h
      · rcases heapPush_mem q e x h with h2 | h2
        · exact Or.inl h2
        · exact Or.inr (by simp [h2])
      · exact Or.inr (by simp [h])

theorem foldl_heapPush_mu_heapOrd (ts0 : List Tick) :
    ∀ q : List Event, heapOrd q →
      heapOrd (ts0.foldl (fun q t => heapPush q (Event.marketUpdate t.timestamp_us t)) q) := by
  induction ts0 with
  | nil => exact fun q hq => hq
  | cons t rest ih =>
      intro q hq
      exact ih _ (heapPush_heapOrd _ _ hq)

theorem foldl_heapPush_mu_mem (ts0 : List Tick) :
    ∀ (q : List Event) (x : Event),
      x ∈ ts0.foldl (fun q t => heapPush q (Event.marketUpdate t.timestamp_us t)) q →
      x ∈ q ∨ ∃ t ∈ ts0, x = Event.marketUpdate t.timestamp_us t := by
  induction ts0 with
  | nil => exact fun q x hx => Or.inl hx
  | cons t rest ih =>
      intro q x hx
      rcases ih _ x hx with h | h
      · rcases heapPush_mem _ _ x h with h2 | h2
        · exact Or.inl h2
        · exact Or.inr ⟨t, by simp, h2⟩
      · obtain ⟨t2, ht2, hx2⟩ := h
        exact Or.inr ⟨t2, by simp [ht2], hx2⟩

/-! ## Engine step lemmas (towards claims C3 and C4) -/

theorem ratTrunc_nonneg (q : ℚ) (h : 0 ≤ q) : 0 ≤ ratTrunc q := by
  unfold ratTrunc
  apply Int.tdiv_nonneg
  · exact Rat.num_nonneg.mpr h
  · exact_mod_cast Nat.zero_le q.den

theorem applyLatency_ge (st : BacktesterState) (ts : ℤ) (h : 0 ≤ st.latency_ms) :
    ts ≤ st.applyLatency ts := by
  unfold BacktesterState.applyLatency
  have h2 : (0:ℤ) ≤ ratTrunc (st.latency_ms * 1000) :=
    ratTrunc_nonneg _ (mul_nonneg h (by norm_num))
  omega

theorem fillForOrder_shape (st : BacktesterState) (ts : ℤ) (sym : String) (dir : Direction)
    (qty price : ℚ) :
    ∃ fp, st.fillForOrder ts sym dir qty price
      = Event.fill (st.applyLatency ts) sym dir qty fp (fp * qty * (1/10000)) := by
  unfold BacktesterState.fillForOrder
  exact ⟨_, rfl⟩

theorem closePosition_preserves (st : BacktesterState) (sym : String) (px : ℚ) (t : ℤ) :
    (st.closePosition sym px t).event_queue = st.event_queue ∧
    (st.closePosition sym px t).latency_ms = st.latency_ms ∧
    (st.closePosition sym px t).strategies = st.strategies ∧
    (st.closePosition sym px t).tick_data = st.tick_data := by
  simp only [BacktesterState.closePosition]
  split
  · exact ⟨rfl, rfl, rfl, rfl⟩
  · split
    · exact ⟨rfl, rfl, rfl, rfl⟩
    · exact ⟨rfl, rfl, rfl, rfl⟩

theorem updatePosition_preserves (st : BacktesterState) (ts : ℤ) (sym : String)
    (dir : Direction) (qty fp : ℚ) :
    (st.updatePosition ts sym dir qty fp).event_queue = st.event_queue ∧
    (st.updatePosition ts sym dir qty fp).latency_ms = st.latency_ms ∧
    (st.updatePosition ts sym dir qty fp).strategies = st.strategies ∧
    (st.updatePosition ts sym dir qty fp).tick_data = st.tick_data := by
  simp only [BacktesterState.updatePosition]
  cases dir with
  | LONG => split_ifs <;> exact ⟨rfl, rfl, rfl, rfl⟩
  | SHORT => split_ifs <;> exact ⟨rfl, rfl, rfl, rfl⟩
  | EXIT =>
      split_ifs <;>
        first
          | exact ⟨rfl, rfl, rfl, rfl⟩
          | exact closePosition_preserves _ sym fp ts

theorem updatePosition_trade_log_of_ne_exit (st : BacktesterState) (ts : ℤ) (sym : String)
    (dir : Direction) (qty fp : ℚ) (h : dir ≠ Direction.EXIT) :
    (st.updatePosition ts sym dir qty fp).trade_log = st.trade_log := by
  simp only [BacktesterState.updatePosition]
  cases dir with
  | LONG => split_ifs <;> rfl
  | SHORT => split_ifs <;> rfl
  | EXIT => exact absurd rfl h

theorem mem_mapInsert {α : Type} (k : String) (v : α) (m : List (String × α)) :
    ∀ p ∈ mapInsert k v m, p = (k, v) ∨ p ∈ m := by
  induction m with
  | nil =>
      intro p hp
      simp [mapInsert] at hp
      exact Or.inl hp
  | cons q rest ih =>
      intro p hp
      obtain ⟨k', v'⟩ := q
      simp only [mapInsert] at hp
      split at hp
      · simp only [List.mem_cons] at hp
        rcases hp with hp | hp | hp
        · exact Or.inl hp
        · exact Or.inr (by simp [hp])
        · exact Or.inr (by simp [hp])
      · split at hp
        · simp only [List.mem_cons] at hp
          rcases hp with hp | hp
          · exact Or.inl hp
          · exact Or.inr (by simp [hp])
        · simp only [List.mem_cons] at hp
          rcases hp with hp | hp
          · exact Or.inr (by simp [hp])
          · rcases ih p hp with h | h
            · exact Or.inl h
            · exact Or.inr (by simp [h])

theorem mapFind?_mem {α : Type} (m : List (String × α)) (k : String) (v : α)
    (h : mapFind? m k = some v) : (k, v) ∈ m := by
  unfold mapFind? at h
  cases hf : m.find? (fun p => p.1 = k) with
  | none => rw [hf] at h; simp at h
  | some p =>
      rw [hf] at h
      simp only [Option.map_some', Option.some.injEq] at h
      have hmem := List.mem_of_find?_eq_some hf
      have hk : p.1 = k := by
        have h2 := List.find?_some hf
        simpa using h2
      have hp : p = (k, v) := by
        obtain ⟨p1, p2⟩ := p
        simp_all
      exact hp ▸ hmem

/-- Every event a strategy emits from `processMarketUpdate` is a `Signal`
carrying the market update's timestamp (this holds in both the exit and the
entry branch). -/
theorem processMarketUpdate_signal_ts (sqrtFn : ℚ → ℚ) (s : StrategyState) (ts : ℤ)
    (tick : Tick) :
    ∀ ev ∈ (s.processMarketUpdate sqrtFn ts tick).2,
      ∃ sym dir qty price, ev = Event.signal ts sym dir qty price := by
  intro ev hev
  simp only [StrategyState.processMarketUpdate] at hev
  rcases hentry : (s.updateTick sqrtFn ts tick).checkEntryConditions tick with ⟨ok, u'⟩
  rw [hentry] at hev
  split at hev
  · split at hev
    · rw [List.mem_singleton] at hev
      exact ⟨_, _, _, _, hev⟩
    · simp at hev
  · split at hev
    · split at hev
      · rw [List.mem_singleton] at hev
        exact ⟨_, _, _, _, hev⟩
      · simp at hev
    · simp at hev

/-- `Backtester::processEvent` preserves the heap order and market-update
consistency of the queue, pushes only events timestamped at or after the
event being processed (given non-negative latency), and leaves the latency
unchanged. -/
theorem processEvent_queue (sqrtFn : ℚ → ℚ) (st : BacktesterState) (ev : Event)
    (hlat : 0 ≤ st.latency_ms)
    (hmu : ∀ ts tick, ev = Event.marketUpdate ts tick → ts = tick.timestamp_us)
    (hq : heapOrd st.event_queue) (hmuq : muConsistent st.event_queue) :
    heapOrd (st.processEvent sqrtFn ev).event_queue ∧
    muConsistent (st.processEvent sqrtFn ev).event_queue ∧
    (∀ x ∈ (st.processEvent sqrtFn ev).event_queue,
      x ∈ st.event_queue ∨ ev.getTimestamp ≤ ets x) ∧
    (st.processEvent sqrtFn ev).latency_ms = st.latency_ms := by
  cases ev with
  | marketUpdate ts tick =>
      have hts : ts = tick.timestamp_us := hmu ts tick rfl
      simp only [BacktesterState.processEvent, BacktesterState.processMarketUpdateEvent]
      split
      · exact ⟨hq, hmuq, fun x hx => Or.inl hx, rfl⟩
      · next sym hres =>
          split
          · exact ⟨hq, hmuq, fun x hx => Or.inl hx, rfl⟩
          · next strat hfind =>
              rcases hpm : strat.processMarketUpdate sqrtFn tick.timestamp_us tick
                with ⟨strat', signals⟩
              have hsig : ∀ x ∈ signals, ∃ sym2 dir qty price,
                  x = Event.signal tick.timestamp_us sym2 dir qty price := by
                have h2 := processMarketUpdate_signal_ts sqrtFn strat tick.timestamp_us tick
                rw [hpm] at h2
                exact h2
              refine ⟨foldl_heapPush_heapOrd signals st.event_queue hq, ?_, ?_, by trivial⟩
              · intro ts' tick' hmem
                rcases foldl_heapPush_mem signals st.event_queue _ hmem with h | h
                · exact hmuq ts' tick' h
                · obtain ⟨s2, d2, q2, p2, hx⟩ := hsig _ h
                  exact Event.noConfusion hx
              · intro x hx
                rcases foldl_heapPush_mem signals st.event_queue x hx with h | h
                · exact Or.inl h
                · obtain ⟨s2, d2, q2, p2, hx2⟩ := hsig x h
                  refine Or.inr ?_
                  rw [hx2]
                  simp [ets, Event.getTimestamp, hts]
  | signal ts sym dir qty price =>
      simp only [BacktesterState.processEvent]
      refine ⟨heapPush_heapOrd _ _ hq, ?_, ?_, by trivial⟩
      · intro ts' tick' hmem
        rcases heapPush_mem _ _ _ hmem with h | h
        · exact hmuq ts' tick' h
        · exact Event.noConfusion h
      · intro x hx
        rcases heapPush_mem _ _ x hx with h | h
        · exact Or.inl h
        · refine Or.inr ?_
          rw [h]
          simp [ets, Event.getTimestamp]
  | order ts sym dir qty price =>
      simp only [BacktesterState.processEvent]
      obtain ⟨fp, hfp⟩ := fillForOrder_shape st ts sym dir qty price
      refine ⟨heapPush_heapOrd _ _ hq, ?_, ?_, by trivial⟩
      · intro ts' tick' hmem
        rcases heapPush_mem _ _ _ hmem with h | h
        · exact hmuq ts' tick' h
        · rw [hfp] at h
          exact Event.noConfusion h
      · intro x hx
        rcases heapPush_mem _ _ x hx with h | h
        · exact Or.inl h
        · refine Or.inr ?_
          rw [h, hfp]
          simp only [ets, Event.getTimestamp]
          exact applyLatency_ge st ts hlat
  | fill ts sym dir qty fp comm =>
      simp only [BacktesterState.processEvent]
      obtain ⟨p1, p2, p3, p4⟩ := updatePosition_preserves st ts sym dir qty fp
      rw [p1, p2]
      exact ⟨hq, hmuq, fun x hx => Or.inl hx, rfl⟩

/-- One loop iteration of `Backtester::run`: popping preserves the queue
invariants, the popped event came from the queue, and everything left in (or
newly pushed to) the queue is timestamped at or after the popped event. -/
theorem step_inv (sqrtFn : ℚ → ℚ) (st : BacktesterState) (e : Event)
    (st' : BacktesterState) (h : st.step sqrtFn = some (e, st'))
    (hlat : 0 ≤ st.latency_ms) (hq : heapOrd st.event_queue)
    (hmuq : muConsistent st.event_queue) :
    heapOrd st'.event_queue ∧ muConsistent st'.event_queue ∧
    0 ≤ st'.latency_ms ∧ e ∈ st.event_queue ∧
    (∀ x ∈ st'.event_queue, ets e ≤ ets x) := by
  unfold BacktesterState.step at h
  cases hpop : heapPop st.event_queue with
  | none => rw [hpop] at h; simp at h
  | some p =>
      obtain ⟨ev, q⟩ := p
      rw [hpop] at h
      simp only [Option.some.injEq, Prod.mk.injEq] at h
      obtain ⟨he, hst'⟩ := h
      subst he
      obtain ⟨hroot, hlen, hmem, hsub⟩ := heapPop_shape _ _ _ hpop
      have hq2 : heapOrd q := heapPop_heapOrd _ _ _ hq hpop
      have hmu2 : muConsistent q := fun ts tick hm => hmuq ts tick (hsub _ hm)
      set st1 : BacktesterState :=
        { st with event_queue := q, current_time_us := ev.getTimestamp } with hst1
      have hmuev : ∀ ts tick, ev = Event.marketUpdate ts tick → ts = tick.timestamp_us := by
        intro ts tick hevq
        exact hmuq ts tick (hevq ▸ hmem)
      obtain ⟨g1, g2, g3, g4⟩ := processEvent_queue sqrtFn st1 ev hlat hmuev hq2 hmu2
      subst hst'
      refine ⟨g1, g2, by rw [g4]; exact hlat, hmem, ?_⟩
      intro x hx
      rcases g3 x hx with hxq | hxb
      · rw [hroot]
        exact heapOrd_root_min _ hq x (hsub x hxq)
      · exact hxb

/-- Every event in the dispatch trace of the event loop is timestamped at or
after any lower bound of the starting queue. -/
theorem runLoop_trace_lower (sqrtFn : ℚ → ℚ) :
    ∀ (fuel : ℕ) (st : BacktesterState) (b : ℤ),
      0 ≤ st.latency_ms → heapOrd st.event_queue → muConsistent st.event_queue →
      (∀ x ∈ st.event_queue, b ≤ ets x) →
      ∀ e ∈ (st.runLoop sqrtFn fuel).2, b ≤ ets e := by
  intro fuel
  induction fuel with
  | zero =>
      intro st b _ _ _ _ e he
      simp [BacktesterState.runLoop] at he
  | succ n ih =>
      intro st b hlat hq hmu hb e he
      simp only [BacktesterState.runLoop] at he
      cases hstep : st.step sqrtFn with
      | none => rw [hstep] at he; simp at he
      | some p =>
          obtain ⟨ev, st'⟩ := p
          rw [hstep] at he
          obtain ⟨g1, g2, g3, g4, g5⟩ := step_inv sqrtFn st ev st' hstep hlat hq hmu
          have hbev : b ≤ ets ev := hb ev g4
          have hb' : ∀ x ∈ st'.event_queue, b ≤ ets x :=
            fun x hx => le_trans hbev (g5 x hx)
          have he2 : e ∈ ev :: (BacktesterState.runLoop sqrtFn n st').2 := he
          rcases List.mem_cons.mp he2 with he3 | he3
          · rw [he3]; exact hbev
          · exact ih st' b g3 g1 g2 hb' e he3

/-- The dispatch trace of the event loop is non-decreasing in timestamp. -/
theorem runLoop_trace_chain (sqrtFn : ℚ → ℚ) :
    ∀ (fuel : ℕ) (st : BacktesterState),
      0 ≤ st.latency_ms → heapOrd st.event_queue → muConsistent st.event_queue →
      List.Chain' (fun a b => a.getTimestamp ≤ b.getTimestamp) (st.runLoop sqrtFn fuel).2 := by
  intro fuel
  induction fuel with
  | zero =>
      intro st _ _ _
      simp [BacktesterState.runLoop]
  | succ n ih =>
      intro st hlat hq hmu
      simp only [BacktesterState.runLoop]
      cases hstep : st.step sqrtFn with
      | none => exact List.chain'_nil
      | some p =>
          obtain ⟨ev, st'⟩ := p
          obtain ⟨g1, g2, g3, _, g5⟩ := step_inv sqrtFn st ev st' hstep hlat hq hmu
          show List.Chain' (fun a b => a.getTimestamp ≤ b.getTimestamp)
            (ev :: (BacktesterState.runLoop sqrtFn n st').2)
          rw [List.chain'_cons']
          constructor
          · intro y hy
            exact runLoop_trace_lower sqrtFn n st' (ets ev) g3 g1 g2 g5 y
              (List.mem_of_mem_head? hy)
          · exact ih st' g3 g1 g2

/-- The initial state of every configured backtest: a heap-ordered queue of
consistent market updates, the requested latency, and an empty trade log. -/
theorem backtestSetup_invariants (latency_ms : ℚ) (symbol : String) (ticks : List Tick)
    (strat : StrategyState) :
    heapOrd (backtestSetup latency_ms symbol ticks strat).event_queue ∧
    muConsistent (backtestSetup latency_ms symbol ticks strat).event_queue ∧
    (backtestSetup latency_ms symbol ticks strat).latency_ms = latency_ms ∧
    (backtestSetup latency_ms symbol ticks strat).trade_log = [] := by
  have hnil : heapOrd ([] : List Event) := by
    intro i hi0 hilen
    simp at hilen
  simp only [backtestSetup, BacktesterState.registerStrategy, BacktesterState.loadTickData,
    Backtester.init]
  split
  · exact ⟨hnil, fun ts tick hm => absurd hm (List.not_mem_nil _), rfl, rfl⟩
  · refine ⟨foldl_heapPush_mu_heapOrd ticks [] hnil, ?_, rfl, rfl⟩
    intro ts tick hm
    rcases foldl_heapPush_mu_mem ticks [] _ hm with h | h
    · exact absurd h (List.not_mem_nil _)
    · obtain ⟨t, ht, hteq⟩ := h
      injection hteq with h1 h2
      rw [h1, h2]

/-- `Backtester::processEvent` keeps every registered strategy flat, never
enqueues an EXIT-direction event when fed a non-EXIT event, and leaves the
trade log and tick data unchanged. -/
theorem processEvent_flat (sqrtFn : ℚ → ℚ) (st : BacktesterState) (ev : Event)
    (hflat : ∀ p ∈ st.strategies, (Prod.snd p).position = 0)
    (hev : eventDir ev ≠ some Direction.EXIT) :
    (∀ p ∈ (st.processEvent sqrtFn ev).strategies, (Prod.snd p).position = 0) ∧
    (∀ x ∈ (st.processEvent sqrtFn ev).event_queue,
        x ∈ st.event_queue ∨ eventDir x ≠ some Direction.EXIT) ∧
    (st.processEvent sqrtFn ev).trade_log = st.trade_log ∧
    (st.processEvent sqrtFn ev).tick_data = st.tick_data := by
  cases ev with
  | marketUpdate ts tick =>
      simp only [BacktesterState.processEvent, BacktesterState.processMarketUpdateEvent]
      split
      · exact ⟨hflat, fun x hx => Or.inl hx, by trivial, by trivial⟩
      · next sym hres =>
          split
          · exact ⟨hflat, fun x hx => Or.inl hx, by trivial, by trivial⟩
          · next strat hfind =>
              rcases hpm : strat.processMarketUpdate sqrtFn tick.timestamp_us tick
                with ⟨strat', signals⟩
              have hstratpos : strat.position = 0 :=
                hflat (sym, strat) (mapFind?_mem _ _ _ hfind)
              have hsig : ∀ x ∈ signals, ∃ qty price,
                  x = Event.signal tick.timestamp_us strat.symbol Direction.LONG qty price := by
                have h2 := processMarketUpdate_signals_long sqrtFn strat tick.timestamp_us
                  tick hstratpos
                rw [hpm] at h2
                exact h2
              refine ⟨?_, ?_, by trivial, by trivial⟩
              · intro p hp
                rcases mem_mapInsert sym strat' st.strategies p hp with h | h
                · have hpos' : strat'.position = strat.position := by
                    have h3 := processMarketUpdate_position sqrtFn strat tick.timestamp_us tick
                    rw [hpm] at h3
                    exact h3
                  rw [h]
                  show strat'.position = 0
                  rw [hpos', hstratpos]
                · exact hflat p h
              · intro x hx
                rcases foldl_heapPush_mem signals st.event_queue x hx with h | h
                · exact Or.inl h
                · obtain ⟨qy, py, hx2⟩ := hsig x h
                  refine Or.inr ?_
                  rw [hx2]
                  simp [eventDir]
  | signal ts sym dir qty price =>
      simp only [BacktesterState.processEvent]
      refine ⟨hflat, ?_, by trivial, by trivial⟩
      intro x hx
      rcases heapPush_mem _ _ x hx with h | h
      · exact Or.inl h
      · refine Or.inr ?_
        rw [h]
        simp only [eventDir] at hev ⊢
        exact hev
  | order ts sym dir qty price =>
      simp only [BacktesterState.processEvent]
      obtain ⟨fp, hfp⟩ := fillForOrder_shape st ts sym dir qty price
      refine ⟨hflat, ?_, by trivial, by trivial⟩
      intro x hx
      rcases heapPush_mem _ _ x hx with h | h
      · exact Or.inl h
      · refine Or.inr ?_
        rw [h, hfp]
        simp only [eventDir] at hev ⊢
        exact hev
  | fill ts sym dir qty fp comm =>
      simp only [BacktesterState.processEvent]
      have hdir : dir ≠ Direction.EXIT := by
        simp only [eventDir] at hev
        intro hd
        exact hev (by rw [hd])
      obtain ⟨p1, p2, p3, p4⟩ := updatePosition_preserves st ts sym dir qty fp
      rw [p1, p3, p4, updatePosition_trade_log_of_ne_exit st ts sym dir qty fp hdir]
      exact ⟨hflat, fun x hx => Or.inl hx, rfl, rfl⟩

/-- As long as every registered strategy is flat and no EXIT event is queued,
the event loop never touches the trade log or the tick data. -/
theorem runLoop_no_trades (sqrtFn : ℚ → ℚ) :
    ∀ (fuel : ℕ) (st : BacktesterState),
      (∀ p ∈ st.strategies, (Prod.snd p).position = 0) →
      (∀ x ∈ st.event_queue, eventDir x ≠ some Direction.EXIT) →
      (st.runLoop sqrtFn fuel).1.trade_log = st.trade_log ∧
      (st.runLoop sqrtFn fuel).1.tick_data = st.tick_data := by
  intro fuel
  induction fuel with
  | zero => exact fun st _ _ => ⟨rfl, rfl⟩
  | succ n ih =>
      intro st hflat hne
      simp only [BacktesterState.runLoop]
      cases hstep : st.step sqrtFn with
      | none => exact ⟨rfl, rfl⟩
      | some p =>
          obtain ⟨ev, st'⟩ := p
          have hstep2 := hstep
          unfold BacktesterState.step at hstep2
          cases hpop : heapPop st.event_queue with
          | none => rw [hpop] at hstep2; simp at hstep2
          | some pq =>
              obtain ⟨ev0, q⟩ := pq
              rw [hpop] at hstep2
              simp only [Option.some.injEq, Prod.mk.injEq] at hstep2
              obtain ⟨hev0, hst'⟩ := hstep2
              subst hev0
              obtain ⟨_, _, hmem, hsub⟩ := heapPop_shape _ _ _ hpop
              set st1 : BacktesterState :=
                { st with event_queue := q, current_time_us := ev0.getTimestamp } with hst1
              have hne1 : eventDir ev0 ≠ some Direction.EXIT := hne ev0 hmem
              have hneq1 : ∀ x ∈ st1.event_queue, eventDir x ≠ some Direction.EXIT :=
                fun x hx => hne x (hsub x hx)
              obtain ⟨g1, g2, g3, g4⟩ := processEvent_flat sqrtFn st1 ev0 hflat hne1
              have hne' : ∀ x ∈ (st1.processEvent sqrtFn ev0).event_queue,
                  eventDir x ≠ some Direction.EXIT := by
                intro x hx
                rcases g2 x hx with h | h
                · exact hneq1 x h
                · exact h
              have hih := ih st' (hst' ▸ g1) (hst' ▸ hne')
              constructor
              · show (BacktesterState.runLoop sqrtFn n st').1.trade_log = st.trade_log
                rw [hih.1, ← hst', g3]
              · show (BacktesterState.runLoop sqrtFn n st').1.tick_data = st.tick_data
                rw [hih.2, ← hst', g4]

theorem closePosition_trades (st : BacktesterState) (sym : String) (px : ℚ) (t : ℤ) :
    ∀ tr ∈ (st.closePosition sym px t).trade_log,
      tr ∈ st.trade_log ∨
      (tr.symbol = sym ∧ tr.exit_timestamp_us = t ∧ tr.exit_price = px) := by
  simp only [BacktesterState.closePosition]
  split
  · exact fun tr htr => Or.inl htr
  · split
    · exact fun tr htr => Or.inl htr
    · intro tr htr
      have htr2 : tr ∈ st.trade_log ++ [_] := htr
      rcases List.mem_append.mp htr2 with h | h
      · exact Or.inl h
      · rw [List.mem_singleton] at h
        rw [h]
        exact Or.inr ⟨rfl, rfl, rfl⟩

theorem forceCloseStep_spec (st : BacktesterState) (sym : String) :
    (st.forceCloseStep sym).tick_data = st.tick_data ∧
    ∀ tr ∈ (st.forceCloseStep sym).trade_log,
      tr ∈ st.trade_log ∨
      ∃ tks, mapFind? st.tick_data tr.symbol = some tks ∧ tks ≠ [] ∧
        tr.exit_timestamp_us = (tks.getLastD default).timestamp_us ∧
        tr.exit_price = (tks.getLastD default).price := by
  simp only [BacktesterState.forceCloseStep]
  split
  · exact ⟨rfl, fun tr htr => Or.inl htr⟩
  · next pos hfind =>
      split
      · next hcond =>
          obtain ⟨hq0, hne⟩ := hcond
          obtain ⟨_, _, _, cp4⟩ := closePosition_preserves st sym
            (((mapFind? st.tick_data sym).getD []).getLastD default).price
            (((mapFind? st.tick_data sym).getD []).getLastD default).timestamp_us
          refine ⟨cp4, ?_⟩
          intro tr htr
          rcases closePosition_trades st sym _ _ tr htr with h | h
          · exact Or.inl h
          · obtain ⟨hsym, hts, hpx⟩ := h
            refine Or.inr ?_
            cases hmf : mapFind? st.tick_data sym with
            | none =>
                exfalso
                rw [hmf] at hne
                simp at hne
            | some tks =>
                refine ⟨tks, ?_, ?_, ?_, ?_⟩
                · rw [hsym, hmf]
                · intro h0
                  rw [hmf, h0] at hne
                  simp at hne
                · rw [hts, hmf]; rfl
                · rw [hpx, hmf]; rfl
      · exact ⟨rfl, fun tr htr => Or.inl htr⟩

theorem forceClose_fold_spec (syms : List String) :
    ∀ st : BacktesterState,
      (syms.foldl BacktesterState.forceCloseStep st).tick_data = st.tick_data ∧
      ∀ tr ∈ (syms.foldl BacktesterState.forceCloseStep st).trade_log,
        tr ∈ st.trade_log ∨
        ∃ tks, mapFind? st.tick_data tr.symbol = some tks ∧ tks ≠ [] ∧
          tr.exit_timestamp_us = (tks.getLastD default).timestamp_us ∧
          tr.exit_price = (tks.getLastD default).price := by
  induction syms with
  | nil => exact fun st => ⟨rfl, fun tr htr => Or.inl htr⟩
  | cons sym rest ih =>
      intro st
      simp only [List.foldl_cons]
      obtain ⟨s1, s2⟩ := forceCloseStep_spec st sym
      obtain ⟨f1, f2⟩ := ih (st.forceCloseStep sym)
      refine ⟨by rw [f1, s1], ?_⟩
      intro tr htr
      rcases f2 tr htr with h | h
      · rcases s2 tr h with h2 | h2
        · exact Or.inl h2
        · exact Or.inr h2
      · rw [s1] at h
        exact Or.inr h

/-- Every trade produced by the force-close sweep (beyond those already
logged) exits at the symbol's last stored tick. -/
theorem forceClose_spec (st : BacktesterState) :
    (st.forceClose).tick_data = st.tick_data ∧
    ∀ tr ∈ (st.forceClose).trade_log,
      tr ∈ st.trade_log ∨
      ∃ tks, mapFind? st.tick_data tr.symbol = some tks ∧ tks ≠ [] ∧
        tr.exit_timestamp_us = (tks.getLastD default).timestamp_us ∧
        tr.exit_price = (tks.getLastD default).price :=
  forceClose_fold_spec (st.positions.map Prod.fst) st

/-- The configured backtest starts with a single flat strategy and a queue of
direction-free market updates. -/
theorem backtestSetup_flat (latency_ms : ℚ) (symbol : String) (ticks : List Tick)
    (symbol2 : String) (regime0 : RegimeState) :
    (∀ p ∈ (backtestSetup latency_ms symbol ticks
        (StrategyState.init symbol2 regime0)).strategies, (Prod.snd p).position = 0) ∧
    (∀ x ∈ (backtestSetup latency_ms symbol ticks
        (StrategyState.init symbol2 regime0)).event_queue,
      eventDir x ≠ some Direction.EXIT) := by
  simp only [backtestSetup, BacktesterState.registerStrategy, BacktesterState.loadTickData,
    Backtester.init]
  split
  · constructor
    · intro p hp
      rcases mem_mapInsert _ _ _ p hp with h | h
      · rw [h]; rfl
      · simp at h
    · intro x hx
      simp at hx
  · constructor
    · intro p hp
      rcases mem_mapInsert _ _ _ p hp with h | h
      · rw [h]; rfl
      · simp at h
    · intro x hx
      rcases foldl_heapPush_mu_mem ticks [] x hx with h | h
      · simp at h
      · obtain ⟨t, ht, hx2⟩ := h
        rw [hx2]
        simp [eventDir]

/-- **C3** (corrected).  Amended claim: in every configured run (any
`sqrtFn`, non-negative latency, tick stream, strategy and fuel) events are
dequeued in non-decreasing timestamp order; the FIFO tie-breaking half of the
original claim is false — `std::priority_queue` attaches no sequence number,
and `equal_timestamp_events_not_fifo` exhibits equal-timestamp events
dispatched out of enqueue order. -/
theorem dispatch_timestamps_nondecreasing (sqrtFn : ℚ → ℚ) (latency_ms : ℚ)
    (symbol : String) (ticks : List Tick) (strat : StrategyState) (fuel : ℕ)
    (hlat : 0 ≤ latency_ms) :
    List.Chain' (fun a b => a.getTimestamp ≤ b.getTimestamp)
      ((backtestSetup latency_ms symbol ticks strat).run sqrtFn fuel).2 := by
  obtain ⟨h1, h2, h3, _⟩ := backtestSetup_invariants latency_ms symbol ticks strat
  have hrun : ((backtestSetup latency_ms symbol ticks strat).run sqrtFn fuel).2
      = ((backtestSetup latency_ms symbol ticks strat).runLoop sqrtFn fuel).2 := by
    unfold BacktesterState.run
    rcases hr : (backtestSetup latency_ms symbol ticks strat).runLoop sqrtFn fuel
      with ⟨st2, trace⟩
    rfl
  rw [hrun]
  exact runLoop_trace_chain sqrtFn fuel _ (by rw [h3]; exact hlat) h1 h2

/-- **C3 witness.**  The amended C3 theorem applied to a concrete input: the
run-B configuration with fuel 1 (latency 200 ms is non-negative, and the
dispatch trace is non-decreasing in timestamp). -/
theorem dispatch_timestamps_nondecreasing_witness :
    (0:ℚ) ≤ 200 ∧
    List.Chain' (fun a b => a.getTimestamp ≤ b.getTimestamp)
      ((backtestSetup 200 "TICKER" runBTicks
        (StrategyState.init "TICKER" (RegimeState.init 100 2))).run ratSqrt 1).2 :=
  ⟨by norm_num, dispatch_timestamps_nondecreasing ratSqrt 200 "TICKER" runBTicks
    (StrategyState.init "TICKER" (RegimeState.init 100 2)) 1 (by norm_num)⟩

/-- **C4** (corrected).  Amended claim: in every configured run with a
`NewsMomentumStrategy` (which never records a position, so no EXIT signal —
hence no signal-driven trade — ever exists), the event loop leaves the trade
log empty, and every `TradeRecord` in the final log comes from the
force-close sweep: its exit timestamp and exit price are those of the last
stored tick of its symbol.  Both halves of the original claim fail: the
force-close exit timestamp is the last tick's timestamp, which can precede
the (latency-shifted) entry timestamp — see
`force_closed_trade_exit_before_entry` — and no trade is ever driven by an
exit signal, so the round-trip-latency bound never applies non-vacuously. -/
theorem trades_only_from_force_close (sqrtFn : ℚ → ℚ) (latency_ms : ℚ) (symbol : String)
    (ticks : List Tick) (symbol2 : String) (regime0 : RegimeState) (fuel : ℕ) :
    ((backtestSetup latency_ms symbol ticks (StrategyState.init symbol2 regime0)).runLoop
        sqrtFn fuel).1.trade_log = [] ∧
    ∀ tr ∈ ((backtestSetup latency_ms symbol ticks (StrategyState.init symbol2 regime0)).run
        sqrtFn fuel).1.trade_log,
      ∃ tks, mapFind? ((backtestSetup latency_ms symbol ticks
          (StrategyState.init symbol2 regime0)).run sqrtFn fuel).1.tick_data tr.symbol
          = some tks ∧ tks ≠ [] ∧
        tr.exit_timestamp_us = (tks.getLastD default).timestamp_us ∧
        tr.exit_price = (tks.getLastD default).price := by
  obtain ⟨hflat, hne⟩ := backtestSetup_flat latency_ms symbol ticks symbol2 regime0
  obtain ⟨hlog, htd⟩ := runLoop_no_trades sqrtFn fuel _ hflat hne
  have hsetuplog : (backtestSetup latency_ms symbol ticks
      (StrategyState.init symbol2 regime0)).trade_log = [] :=
    (backtestSetup_invariants latency_ms symbol ticks
      (StrategyState.init symbol2 regime0)).2.2.2
  rw [hsetuplog] at hlog
  refine ⟨hlog, ?_⟩
  rcases hr : (backtestSetup latency_ms symbol ticks
      (StrategyState.init symbol2 regime0)).runLoop sqrtFn fuel with ⟨stL, trace⟩
  rw [hr] at hlog
  have hlog' : stL.trade_log = [] := hlog
  have hrun : ((backtestSetup latency_ms symbol ticks (StrategyState.init symbol2
      regime0)).run sqrtFn fuel).1
      = if stL.event_queue = [] then stL.forceClose else stL := by
    unfold BacktesterState.run
    rw [hr]
  rw [hrun]
  by_cases hemp : stL.event_queue = []
  · rw [if_pos hemp]
    obtain ⟨fc1, fc2⟩ := forceClose_spec stL
    intro tr htr
    rcases fc2 tr htr with h | h
    · rw [hlog'] at h
      simp at h
    · rw [fc1]
      exact h
  · rw [if_neg hemp]
    intro tr htr
    rw [hlog'] at htr
    simp at htr

unseal Rat.add Rat.mul Rat.sub Rat.inv in
/-- **C4 witness.**  The amended C4 theorem applied to run A with fuel 27:
the loop-final trade log is empty, and the one record of the final log (its
head) exits at the last stored tick of `"TICKER"` — timestamp 21, price
100·1.1²⁰ — although its entry timestamp is 200020. -/
theorem trades_only_from_force_close_witness :
    ((mainSetup "TICKER" runATicks).runLoop ratSqrt 27).1.trade_log = [] ∧
    ∃ tks, mapFind? runAResult.1.tick_data
        (runAResult.1.trade_log.headD default).symbol = some tks ∧ tks ≠ [] ∧
      (runAResult.1.trade_log.headD default).exit_timestamp_us
        = (tks.getLastD default).timestamp_us ∧
      (runAResult.1.trade_log.headD default).exit_price = (tks.getLastD default).price := by
  obtain ⟨h1, h2⟩ := trades_only_from_force_close ratSqrt 200 "TICKER" runATicks "TICKER"
    (RegimeState.init 100 2) 27
  exact ⟨h1, h2 (runAResult.1.trade_log.headD default) (by decide)⟩

end AlgoCatalyst
